import Mathlib

/-!
Verification of the gtd task-management core: a shallow embedding of the
Markdown structured parser (src/parser.rs, src/markdown.rs), the entity
model (src/project.rs, src/context.rs) and the validation engine
(src/validate.rs) over explicit event lists, together with theorems
settling the frozen claims about it.

The pulldown-cmark token stream is external to the program; we model it as
a plain list of structurally comparable events, and every parser is a
state-passing function `List MdEvent → Except ParseError α × List MdEvent`
that returns its result together with the remaining stream (also on
failure, since the Rust parser mutates its cursor in place and failed
sub-parses keep whatever they consumed, except for the single-event
`parse_general` which never consumes on failure).
-/

set_option maxHeartbeats 1600000

/-- Markdown tags, mirroring `pulldown_cmark::Tag` as used by the program.
String payloads stand in for the borrowed `CowStr` data; the link type of
`Link`/`Image` is carried as a `Nat` code since the program only compares
tags structurally. -/
inductive MdTag where
  | paragraph
  | heading (level : Nat)
  | blockQuote
  | codeBlock (kind : String)
  | list (ordered : Option Nat)
  | item
  | footnoteDefinition (s : String)
  | table
  | tableHead
  | tableRow
  | tableCell
  | emphasis
  | strong
  | strikethrough
  | link (ty : Nat) (url : String) (title : String)
  | image (ty : Nat) (url : String) (title : String)
  deriving DecidableEq, Repr

/-- Markdown events, mirroring `pulldown_cmark::Event`. `stop` models
`Event::End`. -/
inductive MdEvent where
  | start (t : MdTag)
  | stop (t : MdTag)
  | text (s : String)
  | code (s : String)
  | html (s : String)
  | footnoteReference (s : String)
  | softBreak
  | hardBreak
  | rule
  | taskListMarker (b : Bool)
  deriving DecidableEq, Repr

/-- A `Fragment` (markdown.rs): an owned immutable sequence of events.
Fragments compare structurally, which `List MdEvent` equality gives us. -/
abbrev Fragment := List MdEvent

/-- Tags allowed inside a heading, mirroring `HeadingTag` in markdown.rs. -/
inductive HeadingTag where
  | emphasis
  | strong
  | strikethrough
  | link (ty : Nat) (url : String) (title : String)
  | image (ty : Nat) (url : String) (title : String)
  deriving DecidableEq, Repr

/-- Events allowed inside a heading, mirroring `HeadingEvent` in markdown.rs. -/
inductive HeadingEvent where
  | start (t : HeadingTag)
  | stop (t : HeadingTag)
  | text (s : String)
  | code (s : String)
  | html (s : String)
  | footnoteReference (s : String)
  deriving DecidableEq, Repr

/-- Conversion errors from events to heading events (`HeadingEventError`). -/
inductive HeadingEventError where
  | invalidStartTag (t : MdTag)
  | invalidEndTag (t : MdTag)
  | invalidEvent (e : MdEvent)
  deriving DecidableEq, Repr

/-- `TryFrom<Tag> for HeadingTag` (markdown.rs): only inline-safe tags
convert. -/
def headingTagOfTag : MdTag → Option HeadingTag
  | .emphasis => some .emphasis
  | .strong => some .strong
  | .strikethrough => some .strikethrough
  | .link ty a b => some (.link ty a b)
  | .image ty a b => some (.image ty a b)
  | _ => none

/-- `TryFrom<Event> for HeadingEvent` (markdown.rs). -/
def headingEventOfEvent : MdEvent → Except HeadingEventError HeadingEvent
  | .start t =>
    match headingTagOfTag t with
    | some ht => .ok (.start ht)
    | none => .error (.invalidStartTag t)
  | .stop t =>
    match headingTagOfTag t with
    | some ht => .ok (.stop ht)
    | none => .error (.invalidEndTag t)
  | .text s => .ok (.text s)
  | .code s => .ok (.code s)
  | .html s => .ok (.html s)
  | .footnoteReference s => .ok (.footnoteReference s)
  | e => .error (.invalidEvent e)

/-- A `Heading` (markdown.rs): a fragment restricted to inline-safe events. -/
abbrev Heading := List HeadingEvent

/-- `TryFrom<Fragment> for Heading` (markdown.rs): convert every event in
order, propagating the first error. -/
def headingOfFragment : Fragment → Except HeadingEventError Heading
  | [] => .ok []
  | e :: rest =>
    match headingEventOfEvent e with
    | .error er => .error er
    | .ok he =>
      match headingOfFragment rest with
      | .error er => .error er
      | .ok hs => .ok (he :: hs)

/-- `Heading::try_as_str` (markdown.rs, called `try_to_text` by its callers
in project.rs): the heading must be a single text run. -/
def tryToText : Heading → Option String
  | [.text t] => some t
  | _ => none

/-- `Heading::try_as_title_string` (markdown.rs, called
`try_to_title_string` by its callers): concatenate text and code runs,
failing on any other event. -/
def tryToTitleString (h : Heading) : Option String :=
  go h ""
where
  go : Heading → String → Option String
  | [], acc => some acc
  | .text t :: rest, acc => go rest (acc ++ t)
  | .code t :: rest, acc => go rest (acc ++ t)
  | _, _ => none

/-- The `actual` part of an `Unexpected` parse error (parser.rs `Actual`). -/
inductive MdActual where
  | eof
  | event (e : MdEvent)
  deriving DecidableEq, Repr

/-- Parse errors (parser.rs `ParseError`). -/
inductive MdParseError where
  | unexpected (expected : MdEvent) (actual : MdActual)
  | couldntParseHeading (e : HeadingEventError)
  deriving DecidableEq, Repr

/-- `Parser::parse_general` (parser.rs): look at the next event; if the
predicate matches, consume and return it, otherwise fail without
consuming, reporting the real next event (or end of stream). The Rust
version also takes an `extract` function whose failure is an unreachable
panic at every instantiation; the instantiations below extract directly
from the returned event instead. -/
def parseGeneral (accepts : MdEvent → Bool) (expected : MdEvent)
    (s : List MdEvent) : Except MdParseError MdEvent × List MdEvent :=
  match s with
  | [] => (.error (.unexpected expected .eof), [])
  | e :: rest =>
    if accepts e then (.ok e, rest)
    else (.error (.unexpected expected (.event e)), e :: rest)

/-- `Parser::parse_start` (parser.rs). -/
def parseStart (tag : MdTag) (s : List MdEvent) :
    Except MdParseError MdEvent × List MdEvent :=
  parseGeneral (fun e => e = .start tag) (.start tag) s

/-- `Parser::parse_end` (parser.rs). -/
def parseEnd (tag : MdTag) (s : List MdEvent) :
    Except MdParseError MdEvent × List MdEvent :=
  parseGeneral (fun e => e = .stop tag) (.stop tag) s

/-- `Parser::parse_text` (parser.rs): parses an unbroken chunk of text.
The placeholder expected event is `Text(" ")` exactly as in the source. -/
def parseText (s : List MdEvent) : Except MdParseError String × List MdEvent :=
  match parseGeneral (fun e => match e with | .text _ => true | _ => false)
      (.text " ") s with
  | (.ok (.text t), s') => (.ok t, s')
  | (.ok _, s') => (.ok "", s')
  | (.error e, s') => (.error e, s')

/-- `Parser::parse_until` (parser.rs): consume and collect events until the
`until` event is next or the stream ends; never fails. -/
def parseUntil (u : MdEvent) : List MdEvent → Fragment × List MdEvent
  | [] => ([], [])
  | e :: rest =>
    if e = u then ([], e :: rest)
    else
      let (f, s) := parseUntil u rest
      (e :: f, s)

/-- `Parser::parse_heading` (parser.rs): a start tag, inline events until
the matching end, the end tag, then conversion to a `Heading`. -/
def parseHeading (level : Nat) (s : List MdEvent) :
    Except MdParseError Heading × List MdEvent :=
  match parseStart (.heading level) s with
  | (.error e, s') => (.error e, s')
  | (.ok _, s') =>
    let (frag, s'') := parseUntil (.stop (.heading level)) s'
    match parseEnd (.heading level) s'' with
    | (.error e, s₃) => (.error e, s₃)
    | (.ok _, s₃) =>
      match headingOfFragment frag with
      | .ok h => (.ok h, s₃)
      | .error e => (.error (.couldntParseHeading e), s₃)

/-- `Parser::parse_item` (parser.rs): a list item delimited by `Item`
start/end events, with everything in between collected as a fragment. -/
def parseItem (s : List MdEvent) : Except MdParseError Fragment × List MdEvent :=
  match parseStart .item s with
  | (.error e, s') => (.error e, s')
  | (.ok _, s') =>
    let (frag, s'') := parseUntil (.stop .item) s'
    match parseEnd .item s'' with
    | (.error e, s₃) => (.error e, s₃)
    | (.ok _, s₃) => (.ok frag, s₃)

/-- The `while self.parse_end(..).is_err()` loop of
`Parser::parse_general_list` (parser.rs), instantiated at unordered lists
with `parse_item` as the item parser (the only instantiation the program
runs): stop successfully when the list-end event is next, otherwise parse
one item and continue; an item failure aborts the whole loop with that
error, exactly as the `?` in `items.push(item_parser(self)?)` does. -/
def parseListItems (s : List MdEvent) :
    Except MdParseError (List Fragment) × List MdEvent :=
  match parseEnd (.list none) s with
  | (.ok _, s') => (.ok [], s')
  | (.error _, _) =>
    match h : parseItem s with
    | (.error e, s') => (.error e, s')
    | (.ok f, s') =>
      match parseListItems s' with
      | (.error e, s'') => (.error e, s'')
      | (.ok fs, s'') => (.ok (f :: fs), s'')
termination_by s.length
decreasing_by
  have hu : ∀ (u : MdEvent) (l : List MdEvent),
      (parseUntil u l).2.length ≤ l.length := by
    intro u l
    induction l with
    | nil => simp [parseUntil]
    | cons e rest ih =>
      by_cases he : e = u
      · simp [parseUntil, he]
      · simp only [parseUntil, if_neg he]
        exact Nat.le_succ_of_le ih
  unfold parseItem at h
  cases s with
  | nil => simp [parseStart, parseGeneral] at h
  | cons e rest =>
    by_cases he : e = .start .item
    · rcases hcc : parseUntil (.stop .item) rest with ⟨frag, s₂⟩
      have hs₂ : s₂.length ≤ rest.length := by
        have := hu (.stop .item) rest
        rw [hcc] at this
        exact this
      simp only [parseStart, parseGeneral, he, hcc, decide_True, if_true] at h
      cases s₂ with
      | nil => simp [parseEnd, parseGeneral] at h
      | cons e₂ r₂ =>
        by_cases he₂ : e₂ = .stop .item
        · simp [parseEnd, parseGeneral, he₂] at h
          simp only [← h.2, List.length_cons] at hs₂ ⊢
          omega
        · simp [parseEnd, parseGeneral, he₂] at h
    · simp [parseStart, parseGeneral, he] at h

/-- `Parser::parse_list` (parser.rs): `parse_general_list(None, parse_item)`,
that is a list-start event followed by the item loop. -/
def parseList (s : List MdEvent) :
    Except MdParseError (List Fragment) × List MdEvent :=
  match parseStart (.list none) s with
  | (.error e, s') => (.error e, s')
  | (.ok _, s') => parseListItems s'

/-- Modelled from the spec: `Parser::parse_list_opt`, called by
`Actions::parse` in project.rs but absent from the parser.rs in this tree
(the files come from different revisions). Per the spec an Actions
subsection `each holding a plain (non-task) list` may be `optional/
empty-allowed` (project.rs tests accept an empty subsection), so the
optional variant parses a list when one starts here and yields no items
otherwise. -/
def parseListOpt (s : List MdEvent) :
    Except MdParseError (List Fragment) × List MdEvent :=
  match s with
  | .start (.list none) :: _ => parseList s
  | _ => (.ok [], s)

/-- `str::split(' ')` from Rust, on character lists: split at every space,
keeping empty pieces. Used by `parse_tags`. -/
def rustSplitSpace : List Char → List (List Char)
  | [] => [[]]
  | c :: rest =>
    if c = ' ' then [] :: rustSplitSpace rest
    else
      match rustSplitSpace rest with
      | [] => [[c]]
      | p :: ps => (c :: p) :: ps

/-- `str::strip_prefix('#')` from Rust, on character lists. -/
def stripHash : List Char → Option (List Char)
  | '#' :: rest => some rest
  | _ => none

/-- The token processing of `Parser::parse_tags` (parser.rs): split the
paragraph text on spaces and keep only tokens with a leading `#`,
stripped. -/
def splitTags (t : String) : List String :=
  (rustSplitSpace t.data).filterMap (fun tok => (stripHash tok).map String.mk)

/-- `Parser::parse_tags` (parser.rs): a paragraph wrapping a single text
run; the text is split into hashtags. -/
def parseTags (s : List MdEvent) :
    Except MdParseError (List String) × List MdEvent :=
  match parseStart .paragraph s with
  | (.error e, s') => (.error e, s')
  | (.ok _, s') =>
    match parseText s' with
    | (.error e, s'') => (.error e, s'')
    | (.ok t, s'') =>
      match parseEnd .paragraph s'' with
      | (.error e, s₃) => (.error e, s₃)
      | (.ok _, s₃) => (.ok (splitTags t), s₃)

/-- `Doc` (markdown.rs): the common prefix of every document, a level-1
title heading and an optional hashtag line; `rest` is the parser state
left for the entity-specific grammar. -/
structure MdDoc where
  title : Heading
  tags : List String
  rest : List MdEvent
  deriving Repr

/-- `Doc::parse` (markdown.rs): parse the title (propagating failure), then
try the tag paragraph, treating failure as no tags; a failed tag parse
keeps whatever events it consumed, as the mutable Rust cursor does. -/
def docParse (s : List MdEvent) : Except MdParseError MdDoc :=
  match parseHeading 1 s with
  | (.error e, _) => .error e
  | (.ok title, s') =>
    match parseTags s' with
    | (.ok tags, s'') => .ok ⟨title, tags, s''⟩
    | (.error _, s'') => .ok ⟨title, [], s''⟩

/-- A project `Name` (project.rs): the filename characters together with
the index of the first space. Rust stores the byte index of that space;
we store the character index, which addresses the same split point, and
the `id`/`title` slices below agree with the byte-based ones because the
id validation only accepts ASCII digits. -/
structure PName where
  name : List Char
  splitIdx : Nat
  deriving DecidableEq, Repr

/-- Index of the first space, as `name.char_indices().find_map(..)` in
`Name::new` computes it. -/
def findSpaceIdx : List Char → Option Nat
  | [] => none
  | c :: rest =>
    if c = ' ' then some 0
    else (findSpaceIdx rest).map (· + 1)

/-- `Name::new` (project.rs): find the first space, validate the prefix
before it as exactly 12 decimal digits, and keep the split. The Rust
check is `id.len() != 12 || id.chars().any(|c| !c.is_digit(10))` on the
byte string; on character lists the conjunction of a 12-character length
and all-ASCII-digit contents is equivalent, since any multi-byte
character fails `is_digit(10)`. -/
def nameNew (name : List Char) : Option PName :=
  match findSpaceIdx name with
  | none => none
  | some splitIdx =>
    let id := name.take splitIdx
    if id.length ≠ 12 ∨ ¬ id.all (·.isDigit) then none
    else some ⟨name, splitIdx⟩

/-- `Name::id` (project.rs): the slice before the first space. -/
def PName.id (n : PName) : List Char := n.name.take n.splitIdx

/-- `Name::title` (project.rs): the slice after the first space. -/
def PName.title (n : PName) : List Char := n.name.drop (n.splitIdx + 1)

/-- Project `Status` (project.rs). -/
inductive Status where
  | someday
  | inProgress
  | complete
  deriving DecidableEq, Repr

/-- `TryFrom<&str> for Status` (project.rs), with the three reserved tag
constants. -/
def statusFromTag (s : String) : Option Status :=
  if s = "someday" then some .someday
  else if s = "in-progress" then some .inProgress
  else if s = "complete" then some .complete
  else none

/-- The status search in `Project::parse` (project.rs):
`tags.iter().enumerate().find_map(..)`, yielding the first tag that parses
as a status together with its index. -/
def findStatus : List String → Option (Nat × Status)
  | [] => none
  | t :: rest =>
    match statusFromTag t with
    | some st => some (0, st)
    | none => (findStatus rest).map (fun p => (p.1 + 1, p.2))

/-- Action category (project.rs `ActionStatus`). -/
inductive ActionStatus where
  | active
  | upcoming
  | complete
  deriving DecidableEq, Repr

/-- A project-local `Action` (project.rs): its text fragment and optional
6-character id. -/
structure GAction where
  text : Fragment
  id : Option String
  deriving DecidableEq, Repr

/-- Index of the last `^`, as Rust `str::rfind('^')` computes it (again as
a character index standing in for the byte index of this ASCII char). -/
def rfindCaret : List Char → Option Nat
  | [] => none
  | c :: rest =>
    match rfindCaret rest with
    | some i => some (i + 1)
    | none => if c = '^' then some 0 else none

/-- Rust `str::len`: the UTF-8 byte length of a character list. -/
def utf8Len (l : List Char) : Nat := (l.map Char.utf8Size).sum

/-- Rust `char::is_whitespace`: the Unicode `White_Space` property,
written out as the full code point table. -/
def isRustWhitespace (c : Char) : Bool :=
  let n := c.toNat
  (0x09 ≤ n && n ≤ 0x0D) || n = 0x20 || n = 0x85 || n = 0xA0 || n = 0x1680 ||
    (0x2000 ≤ n && n ≤ 0x200A) || n = 0x2028 || n = 0x2029 || n = 0x202F ||
    n = 0x205F || n = 0x3000

/-- Rust `str::trim_end`: drop trailing whitespace. -/
def rustTrimEnd (l : List Char) : List Char :=
  (l.reverse.dropWhile isRustWhitespace).reverse

/-- The `split_id` helper inside `Action::from_fragment` (project.rs): the
event must be a text run; its id is whatever follows the last `^`,
accepted only when it is exactly 6 bytes long; the remainder before the
`^` is kept as a replacement text event after trimming trailing
whitespace, or dropped entirely when nothing remains. -/
def splitId : MdEvent → Option (Option MdEvent × String)
  | .text t =>
    match rfindCaret t.data with
    | none => none
    | some idx =>
      let idChars := t.data.drop (idx + 1)
      if utf8Len idChars ≠ 6 then none
      else
        let rest := rustTrimEnd (t.data.take idx)
        some (if rest = [] then none else some (.text (String.mk rest)),
          String.mk idChars)
  | _ => none

/-- `Action::from_fragment` (project.rs): pop the last event, try to split
an id off it, and push back either the trimmed remainder or the event
unchanged. -/
def actionFromFragment (frag : Fragment) : GAction :=
  match frag.getLast? with
  | none => ⟨[], none⟩
  | some lastEv =>
    let evs := frag.dropLast
    match splitId lastEv with
    | some (restEv, id) => ⟨evs ++ restEv.toList, some id⟩
    | none => ⟨evs ++ [lastEv], none⟩

/-- `Actions` (project.rs): the three categorized action lists. -/
structure GActions where
  active : List GAction
  upcoming : List GAction
  complete : List GAction
  deriving DecidableEq, Repr

/-- `Actions::default` (project.rs). -/
def GActions.default : GActions := ⟨[], [], []⟩

/-- `Actions::actions` (project.rs): all actions with their category, in
active, upcoming, complete order. -/
def GActions.actionsList (a : GActions) : List (GAction × ActionStatus) :=
  a.active.map (fun x => (x, .active)) ++ a.upcoming.map (fun x => (x, .upcoming))
    ++ a.complete.map (fun x => (x, .complete))

/-- `Actions::get_action` (project.rs): the first action in that order
whose id is present and equals the requested one. -/
def GActions.getAction (a : GActions) (id : String) :
    Option (GAction × ActionStatus) :=
  a.actionsList.find? (fun p => p.1.id = some id)

/-- `BlockRef` (markdown.rs). -/
structure BlockRef where
  link : String
  id : String
  isEmbedded : Bool
  deriving DecidableEq, Repr

/-- Rust `str::find("#^")`: index of the first occurrence of that two
character substring. -/
def findHashCaret : List Char → Option Nat
  | '#' :: '^' :: _ => some 0
  | _ :: rest => (findHashCaret rest).map (· + 1)
  | [] => none

/-- `BlockRef::from_fragment` (markdown.rs): an exact 5-event bracket
pattern of text runs, with the link and id split at the first `#^` of the
middle text. -/
def blockRefFromFragment (frag : Fragment) : Option BlockRef :=
  match frag with
  | [e₀, e₁, e₂, e₃, e₄] =>
    match e₀, e₁, e₂, e₃, e₄ with
    | .text t₀, .text t₁, .text t₂, .text t₃, .text t₄ =>
      let isEmbedded? : Option Bool :=
        if t₀ = "![" then some true
        else if t₀ = "[" then some false
        else none
      match isEmbedded? with
      | none => none
      | some isEmbedded =>
        if t₁ ≠ "[" then none
        else if t₃ ≠ "]" ∨ t₄ ≠ "]" then none
        else
          match findHashCaret t₂.data with
          | none => none
          | some idx =>
            some ⟨String.mk (t₂.data.take idx),
              String.mk (t₂.data.drop (idx + 2)), isEmbedded⟩
    | _, _, _, _, _ => none
  | _ => none

/-- `ActionRef` (project.rs): a validated block reference. -/
structure ActionRef where
  projectName : PName
  actionId : String
  deriving DecidableEq, Repr

/-- `ActionRef::from_block_ref` (project.rs): re-parse the link as a
project name; fails when it is not one. -/
def actionRefFromBlockRef (b : BlockRef) : Option ActionRef :=
  match nameNew b.link.data with
  | none => none
  | some n => some ⟨n, b.id⟩

/-- Project parse errors (project.rs `ParseError`). -/
inductive ProjectParseError where
  | invalidProjectName
  | missingStatus
  | hasSectionWithNonStringTitle (h : Heading)
  | hasUnexpectedSection (h : Heading)
  | parseError (e : MdParseError)
  deriving DecidableEq, Repr

/-- The `while let Some(Event::Start(Tag::Heading(3)))` loop of
`Actions::parse` (project.rs): as long as a level-3 heading starts here,
parse it, require its title to be a plain string naming one of the three
categories, parse the optional list below it and overwrite that category
with the converted actions. -/
def actionsParseLoop (active upcoming complete : List GAction)
    (s : List MdEvent) : Except ProjectParseError GActions × List MdEvent :=
  match hs : s with
  | .start (.heading 3) :: _ =>
    match hh : parseHeading 3 s with
    | (.error e, s') => (.error (.parseError e), s')
    | (.ok hd, s') =>
      match tryToText hd with
      | none => (.error (.hasSectionWithNonStringTitle hd), s')
      | some title =>
        if title = "Active" ∨ title = "Upcoming" ∨ title = "Complete" then
          let lo := parseListOpt s'
          match lo.1 with
          | .error e => (.error (.parseError e), lo.2)
          | .ok frags =>
            let acts := frags.map actionFromFragment
            if title = "Active" then actionsParseLoop acts upcoming complete lo.2
            else if title = "Upcoming" then
              actionsParseLoop active acts complete lo.2
            else actionsParseLoop active upcoming acts lo.2
        else (.error (.hasUnexpectedSection hd), s')
  | _ => (.ok ⟨active, upcoming, complete⟩, s)
termination_by s.length
decreasing_by
  all_goals (
  -- The general facts below are proved inline because the file keeps all
  -- theorems after all definitions.
  have hu : ∀ (u : MdEvent) (l : List MdEvent),
      (parseUntil u l).2.length ≤ l.length := by
    intro u l
    induction l with
    | nil => simp [parseUntil]
    | cons e rest ih =>
      by_cases he : e = u
      · simp [parseUntil, he]
      · simp only [parseUntil, if_neg he]
        exact Nat.le_succ_of_le ih
  have hmono1 : ∀ (tag : MdTag) (l : List MdEvent),
      (parseStart tag l).2.length ≤ l.length ∧
        (parseEnd tag l).2.length ≤ l.length := by
    intro tag l
    constructor <;>
    · cases l with
      | nil => simp [parseStart, parseEnd, parseGeneral]
      | cons e rest =>
        simp only [parseStart, parseEnd, parseGeneral]
        split <;> simp [Nat.le_succ]
  have hitem : ∀ (l : List MdEvent) (f : Fragment) (l' : List MdEvent),
      parseItem l = (.ok f, l') → l'.length < l.length := by
    intro l f l' hit
    unfold parseItem at hit
    cases l with
    | nil => simp [parseStart, parseGeneral] at hit
    | cons e rest =>
      by_cases he : e = .start .item
      · rcases hcc : parseUntil (.stop .item) rest with ⟨frag, s₂⟩
        have hs₂ : s₂.length ≤ rest.length := by
          have := hu (.stop .item) rest
          rw [hcc] at this
          exact this
        simp only [parseStart, parseGeneral, he, hcc, decide_True, if_true] at hit
        cases s₂ with
        | nil => simp [parseEnd, parseGeneral] at hit
        | cons e₂ r₂ =>
          by_cases he₂ : e₂ = .stop .item
          · simp [parseEnd, parseGeneral, he₂] at hit
            simp only [← hit.2, List.length_cons] at hs₂ ⊢
            omega
          · simp [parseEnd, parseGeneral, he₂] at hit
      · simp [parseStart, parseGeneral, he] at hit
  have hitemM : ∀ (l : List MdEvent), (parseItem l).2.length ≤ l.length := by
    intro l
    unfold parseItem
    rcases hps : parseStart .item l with ⟨r, t⟩
    have ht : t.length ≤ l.length := by
      have := (hmono1 .item l).1
      rw [hps] at this
      exact this
    cases r with
    | error e => simpa using ht
    | ok x =>
      rcases hcu : parseUntil (.stop .item) t with ⟨frag, t₂⟩
      have ht₂ : t₂.length ≤ t.length := by
        have := hu (.stop .item) t
        rw [hcu] at this
        exact this
      rcases hpe : parseEnd .item t₂ with ⟨r₂, t₃⟩
      have ht₃ : t₃.length ≤ t₂.length := by
        have := (hmono1 .item t₂).2
        rw [hpe] at this
        exact this
      cases r₂ with
      | error e =>
        simp only [hcu, hpe]
        omega
      | ok y =>
        simp only [hcu, hpe]
        omega
  have hitemsM : ∀ (n : Nat) (l : List MdEvent), l.length ≤ n →
      (parseListItems l).2.length ≤ l.length := by
    intro n
    induction n with
    | zero =>
      intro l hn
      have hnil : l = [] := List.eq_nil_of_length_eq_zero (Nat.le_zero.mp hn)
      subst hnil
      rw [parseListItems]
      simp [parseEnd, parseGeneral, parseItem, parseStart]
    | succ n ih =>
      intro l hn
      rw [parseListItems]
      split
      next x t hpe =>
        have := (hmono1 (.list none) l).2
        rw [hpe] at this
        simpa using this
      next r t hpe =>
        split
        next e t₀ hpi =>
          have := hitemM l
          rw [hpi] at this
          simpa using this
        next f ti hpi =>
          have hti : ti.length < l.length := hitem l f ti hpi
          split
          next e₁ t₁ hrec =>
            have h₅ : t₁.length ≤ ti.length := by
              have := ih ti (by omega)
              rw [hrec] at this
              exact this
            show t₁.length ≤ l.length
            omega
          next fs₂ t₁ hrec =>
            have h₅ : t₁.length ≤ ti.length := by
              have := ih ti (by omega)
              rw [hrec] at this
              exact this
            show t₁.length ≤ l.length
            omega
  have hlistM : ∀ (l : List MdEvent), (parseList l).2.length ≤ l.length := by
    intro l
    unfold parseList
    rcases hps : parseStart (.list none) l with ⟨r, t⟩
    have ht : t.length ≤ l.length := by
      have := (hmono1 (.list none) l).1
      rw [hps] at this
      exact this
    cases r with
    | error e => simpa using ht
    | ok x =>
      have := hitemsM t.length t le_rfl
      simp only
      omega
  have hloM : ∀ (l : List MdEvent), (parseListOpt l).2.length ≤ l.length := by
    intro l
    unfold parseListOpt
    split
    · exact hlistM _
    · exact le_rfl
  have hhdM : ∀ (lv : Nat) (l : List MdEvent),
      (parseHeading lv l).2.length ≤ l.length := by
    intro lv l
    unfold parseHeading
    rcases hps : parseStart (.heading lv) l with ⟨r, t⟩
    have ht : t.length ≤ l.length := by
      have := (hmono1 (.heading lv) l).1
      rw [hps] at this
      exact this
    cases r with
    | error e => simpa using ht
    | ok x =>
      rcases hcu : parseUntil (.stop (.heading lv)) t with ⟨frag, t₂⟩
      have ht₂ : t₂.length ≤ t.length := by
        have := hu (.stop (.heading lv)) t
        rw [hcu] at this
        exact this
      rcases hpe : parseEnd (.heading lv) t₂ with ⟨r₂, t₃⟩
      have ht₃ : t₃.length ≤ t₂.length := by
        have := (hmono1 (.heading lv) t₂).2
        rw [hpe] at this
        exact this
      cases r₂ with
      | error e =>
        simp only [hcu, hpe]
        omega
      | ok y =>
        rcases hcv : headingOfFragment frag with e | h₂ <;>
          simp only [hcu, hpe, hcv] <;> omega
  have hhd : ∀ (lv : Nat) (l : List MdEvent) (hd : Heading) (l' : List MdEvent),
      parseHeading lv l = (.ok hd, l') → l'.length < l.length := by
    intro lv l hd l' hph
    unfold parseHeading at hph
    cases l with
    | nil => simp [parseStart, parseGeneral] at hph
    | cons e rest =>
      by_cases he : e = .start (.heading lv)
      · rcases hcc : parseUntil (.stop (.heading lv)) rest with ⟨frag, s₂⟩
        have hs₂ : s₂.length ≤ rest.length := by
          have := hu (.stop (.heading lv)) rest
          rw [hcc] at this
          exact this
        simp only [parseStart, parseGeneral, he, hcc, decide_True, if_true] at hph
        cases s₂ with
        | nil => simp [parseEnd, parseGeneral] at hph
        | cons e₂ r₂ =>
          by_cases he₂ : e₂ = .stop (.heading lv)
          · simp only [parseEnd, parseGeneral, he₂, decide_True, if_true] at hph
            have hr₂ : l' = r₂ := by
              rcases hconv : headingOfFragment frag with hcv | hcv <;>
                rw [hconv] at hph <;> simp at hph <;> tauto
            subst hr₂
            simp only [List.length_cons] at hs₂ ⊢
            omega
          · simp [parseEnd, parseGeneral, he₂] at hph
      · simp [parseStart, parseGeneral, he] at hph
  have h1 : s'.length < s.length := hhd 3 s hd s' hh
  rw [← hs]
  exact lt_of_le_of_lt (hloM s') h1)

/-- The section loop of `Project::parse` (project.rs): while events remain,
parse a level-2 heading, require a plain-string title, and dispatch on it:
`Goal` and `Info` capture everything up to the next level-2 heading,
`Actions` (and the deprecated `Action Items`, whose warning side effect is
not modelled) runs `Actions::parse` and keeps its result only on success
(`.ok()` discards the error but keeps the cursor), and anything else
aborts with `HasUnexpectedSection`. -/
def projectSections (goal info : Option Fragment) (actions : Option GActions)
    (s : List MdEvent) :
    Except ProjectParseError (Option Fragment × Option Fragment × Option GActions)
      × List MdEvent :=
  match hs : s with
  | [] => (.ok (goal, info, actions), [])
  | _ :: _ =>
    match hh : parseHeading 2 s with
    | (.error e, s') => (.error (.parseError e), s')
    | (.ok hd, s') =>
      match tryToText hd with
      | none => (.error (.hasSectionWithNonStringTitle hd), s')
      | some title =>
        if title = "Goal" then
          let pu := parseUntil (.start (.heading 2)) s'
          projectSections (some pu.1) info actions pu.2
        else if title = "Info" then
          let pu := parseUntil (.start (.heading 2)) s'
          projectSections goal (some pu.1) actions pu.2
        else if title = "Actions" ∨ title = "Action Items" then
          let ap := actionsParseLoop [] [] [] s'
          projectSections goal info ap.1.toOption ap.2
        else (.error (.hasUnexpectedSection hd), s')
termination_by s.length
decreasing_by
  all_goals (
  -- Shared inline toolkit: every parser leaves a state no longer than its
  -- input, and a successful heading parse strictly consumes. Proved here
  -- because the file keeps all theorems after all definitions.
  have hu : ∀ (u : MdEvent) (l : List MdEvent),
      (parseUntil u l).2.length ≤ l.length := by
    intro u l
    induction l with
    | nil => simp [parseUntil]
    | cons e rest ih =>
      by_cases he : e = u
      · simp [parseUntil, he]
      · simp only [parseUntil, if_neg he]
        exact Nat.le_succ_of_le ih
  have hmono1 : ∀ (tag : MdTag) (l : List MdEvent),
      (parseStart tag l).2.length ≤ l.length ∧
        (parseEnd tag l).2.length ≤ l.length := by
    intro tag l
    constructor <;>
    · cases l with
      | nil => simp [parseStart, parseEnd, parseGeneral]
      | cons e rest =>
        simp only [parseStart, parseEnd, parseGeneral]
        split <;> simp [Nat.le_succ]
  have hitem : ∀ (l : List MdEvent) (f : Fragment) (l' : List MdEvent),
      parseItem l = (.ok f, l') → l'.length < l.length := by
    intro l f l' hit
    unfold parseItem at hit
    cases l with
    | nil => simp [parseStart, parseGeneral] at hit
    | cons e rest =>
      by_cases he : e = .start .item
      · rcases hcc : parseUntil (.stop .item) rest with ⟨frag, s₂⟩
        have hs₂ : s₂.length ≤ rest.length := by
          have := hu (.stop .item) rest
          rw [hcc] at this
          exact this
        simp only [parseStart, parseGeneral, he, hcc, decide_True, if_true] at hit
        cases s₂ with
        | nil => simp [parseEnd, parseGeneral] at hit
        | cons e₂ r₂ =>
          by_cases he₂ : e₂ = .stop .item
          · simp [parseEnd, parseGeneral, he₂] at hit
            simp only [← hit.2, List.length_cons] at hs₂ ⊢
            omega
          · simp [parseEnd, parseGeneral, he₂] at hit
      · simp [parseStart, parseGeneral, he] at hit
  have hitemM : ∀ (l : List MdEvent), (parseItem l).2.length ≤ l.length := by
    intro l
    unfold parseItem
    rcases hps : parseStart .item l with ⟨r, t⟩
    have ht : t.length ≤ l.length := by
      have := (hmono1 .item l).1
      rw [hps] at this
      exact this
    cases r with
    | error e => simpa using ht
    | ok x =>
      rcases hcu : parseUntil (.stop .item) t with ⟨frag, t₂⟩
      have ht₂ : t₂.length ≤ t.length := by
        have := hu (.stop .item) t
        rw [hcu] at this
        exact this
      rcases hpe : parseEnd .item t₂ with ⟨r₂, t₃⟩
      have ht₃ : t₃.length ≤ t₂.length := by
        have := (hmono1 .item t₂).2
        rw [hpe] at this
        exact this
      cases r₂ with
      | error e =>
        simp only [hcu, hpe]
        omega
      | ok y =>
        simp only [hcu, hpe]
        omega
  have hitemsM : ∀ (n : Nat) (l : List MdEvent), l.length ≤ n →
      (parseListItems l).2.length ≤ l.length := by
    intro n
    induction n with
    | zero =>
      intro l hn
      have hnil : l = [] := List.eq_nil_of_length_eq_zero (Nat.le_zero.mp hn)
      subst hnil
      rw [parseListItems]
      simp [parseEnd, parseGeneral, parseItem, parseStart]
    | succ n ih =>
      intro l hn
      rw [parseListItems]
      split
      next x t hpe =>
        have := (hmono1 (.list none) l).2
        rw [hpe] at this
        simpa using this
      next r t hpe =>
        split
        next e t₀ hpi =>
          have := hitemM l
          rw [hpi] at this
          simpa using this
        next f ti hpi =>
          have hti : ti.length < l.length := hitem l f ti hpi
          split
          next e₁ t₁ hrec =>
            have h₅ : t₁.length ≤ ti.length := by
              have := ih ti (by omega)
              rw [hrec] at this
              exact this
            show t₁.length ≤ l.length
            omega
          next fs₂ t₁ hrec =>
            have h₅ : t₁.length ≤ ti.length := by
              have := ih ti (by omega)
              rw [hrec] at this
              exact this
            show t₁.length ≤ l.length
            omega
  have hlistM : ∀ (l : List MdEvent), (parseList l).2.length ≤ l.length := by
    intro l
    unfold parseList
    rcases hps : parseStart (.list none) l with ⟨r, t⟩
    have ht : t.length ≤ l.length := by
      have := (hmono1 (.list none) l).1
      rw [hps] at this
      exact this
    cases r with
    | error e => simpa using ht
    | ok x =>
      have := hitemsM t.length t le_rfl
      simp only
      omega
  have hloM : ∀ (l : List MdEvent), (parseListOpt l).2.length ≤ l.length := by
    intro l
    unfold parseListOpt
    split
    · exact hlistM _
    · exact le_rfl
  have hhdM : ∀ (lv : Nat) (l : List MdEvent),
      (parseHeading lv l).2.length ≤ l.length := by
    intro lv l
    unfold parseHeading
    rcases hps : parseStart (.heading lv) l with ⟨r, t⟩
    have ht : t.length ≤ l.length := by
      have := (hmono1 (.heading lv) l).1
      rw [hps] at this
      exact this
    cases r with
    | error e => simpa using ht
    | ok x =>
      rcases hcu : parseUntil (.stop (.heading lv)) t with ⟨frag, t₂⟩
      have ht₂ : t₂.length ≤ t.length := by
        have := hu (.stop (.heading lv)) t
        rw [hcu] at this
        exact this
      rcases hpe : parseEnd (.heading lv) t₂ with ⟨r₂, t₃⟩
      have ht₃ : t₃.length ≤ t₂.length := by
        have := (hmono1 (.heading lv) t₂).2
        rw [hpe] at this
        exact this
      cases r₂ with
      | error e =>
        simp only [hcu, hpe]
        omega
      | ok y =>
        rcases hcv : headingOfFragment frag with e | h₂ <;>
          simp only [hcu, hpe, hcv] <;> omega
  have hhd : ∀ (lv : Nat) (l : List MdEvent) (hd : Heading) (l' : List MdEvent),
      parseHeading lv l = (.ok hd, l') → l'.length < l.length := by
    intro lv l hd l' hph
    unfold parseHeading at hph
    cases l with
    | nil => simp [parseStart, parseGeneral] at hph
    | cons e rest =>
      by_cases he : e = .start (.heading lv)
      · rcases hcc : parseUntil (.stop (.heading lv)) rest with ⟨frag, s₂⟩
        have hs₂ : s₂.length ≤ rest.length := by
          have := hu (.stop (.heading lv)) rest
          rw [hcc] at this
          exact this
        simp only [parseStart, parseGeneral, he, hcc, decide_True, if_true] at hph
        cases s₂ with
        | nil => simp [parseEnd, parseGeneral] at hph
        | cons e₂ r₂ =>
          by_cases he₂ : e₂ = .stop (.heading lv)
          · simp only [parseEnd, parseGeneral, he₂, decide_True, if_true] at hph
            have hr₂ : l' = r₂ := by
              rcases hconv : headingOfFragment frag with hcv | hcv <;>
                rw [hconv] at hph <;> simp at hph <;> tauto
            subst hr₂
            simp only [List.length_cons] at hs₂ ⊢
            omega
          · simp [parseEnd, parseGeneral, he₂] at hph
      · simp [parseStart, parseGeneral, he] at hph
  have haplM : ∀ (n : Nat) (a u c : List GAction) (l : List MdEvent),
      l.length ≤ n → (actionsParseLoop a u c l).2.length ≤ l.length := by
    intro n
    induction n with
    | zero =>
      intro a u c l hn
      have hnil : l = [] := List.eq_nil_of_length_eq_zero (Nat.le_zero.mp hn)
      subst hnil
      simp [actionsParseLoop]
    | succ n ih =>
      intro a u c l hn
      rcases hap2 : actionsParseLoop a u c l with ⟨r, t⟩
      show t.length ≤ l.length
      rw [actionsParseLoop.eq_def] at hap2
      split at hap2
      · rename_i tail
        split at hap2
        next e t' hph =>
          cases hap2
          have := hhdM 3 (.start (.heading 3) :: tail)
          rw [hph] at this
          exact this
        next hd' t' hph =>
          have hle1 : t'.length ≤ (MdEvent.start (MdTag.heading 3) :: tail).length := by
            have := hhdM 3 (.start (.heading 3) :: tail)
            rw [hph] at this
            exact this
          have hlt1 : t'.length < (MdEvent.start (MdTag.heading 3) :: tail).length :=
            hhd 3 _ hd' t' hph
          split at hap2
          · cases hap2
            exact hle1
          · split at hap2
            · rcases hlo2 : parseListOpt t' with ⟨rl, tl⟩
              have h₂ : tl.length ≤ t'.length := by
                have := hloM t'
                rw [hlo2] at this
                exact this
              rw [hlo2] at hap2
              have h₃ : tl.length ≤ n := by
                simp only [List.length_cons] at hlt1 hn
                omega
              cases rl with
              | error e =>
                dsimp only at hap2
                cases hap2
                omega
              | ok frags =>
                dsimp only at hap2
                split at hap2
                · have h₄ := ih (frags.map actionFromFragment) u c tl h₃
                  rw [hap2] at h₄
                  have h₅ : t.length ≤ tl.length := h₄
                  omega
                · split at hap2
                  · have h₄ := ih a (frags.map actionFromFragment) c tl h₃
                    rw [hap2] at h₄
                    have h₅ : t.length ≤ tl.length := h₄
                    omega
                  · have h₄ := ih a u (frags.map actionFromFragment) tl h₃
                    rw [hap2] at h₄
                    have h₅ : t.length ≤ tl.length := h₄
                    omega
            · cases hap2
              exact hle1
      · cases hap2
        exact le_rfl
  try rw [← hs]
  have h1 : s'.length < s.length := hhd 2 s hd s' hh
  first
  | exact lt_of_le_of_lt (hu (.start (.heading 2)) s') h1
  | exact lt_of_le_of_lt (haplM s'.length [] [] [] s' le_rfl) h1)

/-- A `Project` (project.rs). -/
structure Project where
  name : PName
  title : Heading
  tags : List String
  status : Status
  goal : Option Fragment
  info : Option Fragment
  actions : GActions
  deriving DecidableEq, Repr

/-- `Project::id` (project.rs), as a string. -/
def Project.idStr (p : Project) : String := String.mk p.name.id

/-- `Project::title` (project.rs): the name-derived title, as a string. -/
def Project.nameTitle (p : Project) : String := String.mk p.name.title

/-- The `Display` form of a project name (project.rs): the whole filename
stem. -/
def Project.nameStr (p : Project) : String := String.mk p.name.name

/-- `Project::parse` (project.rs): validate the filename as a `Name`,
parse the document prefix, extract the first status tag (failing with
`MissingStatus` when none parses) and remove exactly that tag, then run
the section loop; absent actions default to empty. -/
def projectParse (filename : String) (s : List MdEvent) :
    Except ProjectParseError Project :=
  match nameNew filename.data with
  | none => .error .invalidProjectName
  | some name =>
    match docParse s with
    | .error e => .error (.parseError e)
    | .ok doc =>
      match findStatus doc.tags with
      | none => .error .missingStatus
      | some (statusIdx, status) =>
        let tags := doc.tags.eraseIdx statusIdx
        match projectSections none none none doc.rest with
        | (.error e, _) => .error e
        | (.ok (goal, info, actions), _) =>
          .ok ⟨name, doc.title, tags, status, goal, info,
            actions.getD GActions.default⟩

/-- A context `Name` (context.rs): any filename stem, unvalidated. -/
structure CName where
  str : String
  deriving DecidableEq, Repr

/-- A context `Action` (context.rs): literal text or a reference into a
project. -/
inductive CtxAction where
  | literal (f : Fragment)
  | reference (r : ActionRef)
  deriving DecidableEq, Repr

/-- `Action::to_action_ref` (context.rs). -/
def CtxAction.toActionRef : CtxAction → Option ActionRef
  | .literal _ => none
  | .reference r => some r

/-- `Action::from_fragment` (context.rs). The Rust code runs
`ActionRef::from_block_ref(block_ref).unwrap()`, which panics when the
bracket pattern parses but its link is not a valid project name; the
`none` result models that panic. -/
def ctxActionFromFragment (f : Fragment) : Option CtxAction :=
  match blockRefFromFragment f with
  | some b => (actionRefFromBlockRef b).map .reference
  | none => some (.literal f)

/-- A `Context` (context.rs). -/
structure Context where
  name : CName
  title : Heading
  actions : List CtxAction
  deriving DecidableEq, Repr

/-- The outcome of `Context::parse` (context.rs): success, a wrapped
parser error, or the `unwrap` panic on an invalid reference link. -/
inductive ContextParseResult where
  | ok (c : Context)
  | err (e : MdParseError)
  | panic
  deriving DecidableEq, Repr

/-- The `parser.parse_list().ok().unwrap_or_else(Vec::new)` step of
`Context::parse` (context.rs): the item fragments of the list starting
here, or none at all when the list parse fails. -/
def ctxItemFrags (s : List MdEvent) : List Fragment :=
  match parseList s with
  | (.ok fs, _) => fs
  | (.error _, _) => []

/-- The `collect` over `Action::from_fragment` results in `Context::parse`
(context.rs): all items converted in order, `none` when any conversion
panics. -/
def ctxActionsFromFrags : List Fragment → Option (List CtxAction)
  | [] => some []
  | f :: rest =>
    match ctxActionFromFragment f with
    | none => none
    | some a =>
      match ctxActionsFromFrags rest with
      | none => none
      | some as₀ => some (a :: as₀)

/-- `Context::parse` (context.rs): parse the document prefix (tags are
discarded by `Doc::parse` binding), then a single unordered list whose
failure is swallowed into an empty action list, each item converted by
`Action::from_fragment`. -/
def contextParse (filename : String) (s : List MdEvent) : ContextParseResult :=
  match docParse s with
  | .error e => .err e
  | .ok doc =>
    match ctxActionsFromFrags (ctxItemFrags doc.rest) with
    | none => .panic
    | some actions => .ok ⟨⟨filename⟩, doc.title, actions⟩

/-- The loaded corpus (gtd.rs `Documents`). The Rust maps are keyed by the
names the entities were parsed from, which equal the entities own `name`
fields; lists stand in for the hash maps, their order standing in for the
map iteration order. -/
structure Documents where
  projects : List Project
  contexts : List Context
  deriving Repr

/-- `Documents::project` (gtd.rs): look a project up by name. -/
def Documents.project (d : Documents) (n : PName) : Option Project :=
  d.projects.find? (fun p => p.name = n)

/-- `project_id_is_unique` (validate.rs): stateful rule carrying the set of
seen IDs; inserting an already-present ID reports a duplicate. -/
def projectIdIsUnique (seen : List String) (p : Project) :
    Except String Unit × List String :=
  if p.idStr ∈ seen then (.error "has a duplicate ID", seen)
  else (.ok (), p.idStr :: seen)

/-- `project_title_matches_name` (validate.rs). -/
def projectTitleMatchesName (p : Project) : Except String Unit :=
  match tryToTitleString p.title with
  | none => .error "has an invalid title in its body"
  | some bodyTitle =>
    if p.nameTitle ≠ bodyTitle then
      .error ("has a name \"" ++ bodyTitle ++ "\" that doesn\x27t match its title")
    else .ok ()

/-- `complete_project_has_only_complete_actions` (validate.rs). -/
def completeProjectHasOnlyCompleteActions (p : Project) : Except String Unit :=
  if p.status ≠ .complete then .ok ()
  else if p.actions.actionsList.all (fun q => q.2 = ActionStatus.complete) then
    .ok ()
  else .error "is complete but has at least one uncomplete action"

/-- `in_progress_project_has_active_actions` (validate.rs). -/
def inProgressProjectHasActiveActions (p : Project) : Except String Unit :=
  if p.status ≠ .inProgress then .ok ()
  else if 1 ≤ (p.actions.actionsList.filter
      (fun q => q.2 = ActionStatus.active)).length then .ok ()
  else .error "is in progress but has no active actions"

/-- `action_link_is_valid` (validate.rs): only applies to references; the
resolved project must exist. -/
def actionLinkIsValid (a : CtxAction) (proj : Option Project) :
    Except String Unit :=
  match a.toActionRef with
  | none => .ok ()
  | some _ =>
    match proj with
    | none => .error "not a valid link to project"
    | some _ => .ok ()

/-- `linked_project_is_in_progress` (validate.rs). -/
def linkedProjectIsInProgress (a : CtxAction) (proj : Option Project) :
    Except String Unit :=
  match a.toActionRef with
  | none => .ok ()
  | some _ =>
    match proj with
    | none => .ok ()
    | some p =>
      if p.status ≠ .inProgress then
        .error ("linked project \"" ++ p.nameTitle ++ "\" is not in progress")
      else .ok ()

/-- `linked_project_contains_action` (validate.rs). -/
def linkedProjectContainsAction (a : CtxAction) (proj : Option Project) :
    Except String Unit :=
  match a.toActionRef with
  | none => .ok ()
  | some r =>
    match proj with
    | none => .ok ()
    | some p =>
      match p.actions.getAction r.actionId with
      | none =>
        .error ("linked project \"" ++ p.nameTitle ++
          "\" doesn\x27t have the action")
      | some _ => .ok ()

/-- `action_in_project_is_active` (validate.rs). -/
def actionInProjectIsActive (a : CtxAction) (proj : Option Project) :
    Except String Unit :=
  match a.toActionRef with
  | none => .ok ()
  | some r =>
    match proj with
    | none => .ok ()
    | some p =>
      match p.actions.getAction r.actionId with
      | none => .ok ()
      | some q =>
        if q.2 ≠ .active then
          .error ("action is not active in linked project \"" ++
            p.nameTitle ++ "\"")
        else .ok ()

/-- `linked_action_is_unique` (validate.rs): stateful rule carrying the set
of seen action references. Note that the whole `ActionRef` (project name
and action id) is inserted; the project argument is ignored. -/
def linkedActionIsUnique (seen : List ActionRef) (a : CtxAction)
    (_proj : Option Project) : Except String Unit × List ActionRef :=
  match a.toActionRef with
  | none => (.ok (), seen)
  | some r =>
    if r ∈ seen then (.error "action is not unique in contexts", seen)
    else (.ok (), r :: seen)

/-- One diagnostic of the validation run: a header naming an entity with
its collected failure messages, or a bare ad-hoc line. The `:` and `- `
print formatting of `ValidatorRunner` is left out; the grouping is what
the diagnostics contract specifies. -/
inductive Diagnostic where
  | group (entity : String) (messages : List String)
  | line (message : String)
  deriving DecidableEq, Repr

/-- `ValidatorRunner::run_project_validators` for the rule list registered
by `validate` (validate.rs): run the four project rules in registration
order, collect the error messages, and thread the uniqueness state. -/
def runProjectRules (seen : List String) (p : Project) :
    List String × List String :=
  let idRes := projectIdIsUnique seen p
  let msgs := [idRes.1, projectTitleMatchesName p,
    completeProjectHasOnlyCompleteActions p,
    inProgressProjectHasActiveActions p].filterMap
      (fun r => match r with | .error m => some m | .ok _ => none)
  (msgs, idRes.2)

/-- `ValidatorRunner::run_context_action_validators` for the rule list
registered by `validate` (validate.rs): the five context-action rules in
registration order. -/
def runCtxActionRules (seen : List ActionRef) (a : CtxAction)
    (proj : Option Project) : List String × List ActionRef :=
  let uniqRes := linkedActionIsUnique seen a proj
  let msgs := [actionLinkIsValid a proj, linkedProjectIsInProgress a proj,
    linkedProjectContainsAction a proj, actionInProjectIsActive a proj,
    uniqRes.1].filterMap
      (fun r => match r with | .error m => some m | .ok _ => none)
  (msgs, uniqRes.2)

/-- `all_active_actions_are_in_a_context` (validate.rs): for every active
action of every in-progress project, report it unless some context action
references its id (an id-less active action is always reported). -/
def allActiveActionsAreInAContext (docs : Documents) : List Diagnostic :=
  (docs.projects.filter (fun p => p.status = .inProgress)).flatMap (fun p =>
    p.actions.active.filterMap (fun a =>
      let msg := Diagnostic.line ("Project \"" ++ p.nameTitle ++
        "\" action is active but isn\x27t in any contexts")
      match a.id with
      | none => some msg
      | some id =>
        if docs.contexts.any (fun c => c.actions.any (fun ca =>
            match ca.toActionRef with
            | some r => r.actionId = id
            | none => false)) then none
        else some msg))

/-- `ValidatorRunner::run` with the rules registered by `validate`
(validate.rs): project rules over every project, then context-action rules
over every action of every context (resolving the referenced project
first), then the ad-hoc rule; failures are grouped per entity, and
entities with no failing rule produce no output. -/
def runValidate (docs : Documents) : List Diagnostic :=
  let pAcc := docs.projects.foldl
    (fun (acc : List Diagnostic × List String) p =>
      let step := runProjectRules acc.2 p
      (acc.1 ++ (if step.1.isEmpty then []
        else [.group p.nameStr step.1]), step.2))
    ([], [])
  let cAcc := docs.contexts.foldl
    (fun (acc : List Diagnostic × List ActionRef) ctx =>
      ctx.actions.foldl
        (fun (acc : List Diagnostic × List ActionRef) a =>
          let proj := a.toActionRef.bind (fun r => docs.project r.projectName)
          let step := runCtxActionRules acc.2 a proj
          (acc.1 ++ (if step.1.isEmpty then []
            else [.group ("action in " ++ ctx.name.str) step.1]), step.2))
        acc)
    ([], [])
  pAcc.1 ++ cAcc.1 ++ allActiveActionsAreInAContext docs

/-- Event-list builder for a document whose title heading wraps an
arbitrary fragment: used to state claims about `Doc::parse` consumers. -/
def docEvents (titleFrag : Fragment) (rest : List MdEvent) : List MdEvent :=
  .start (.heading 1) :: titleFrag ++ .stop (.heading 1) :: rest

/-- Event-list builder for a project document with a plain-text title, a
tag paragraph, and arbitrary further events. -/
def projDocEvents (title tagline : String) (rest : List MdEvent) :
    List MdEvent :=
  .start (.heading 1) :: .text title :: .stop (.heading 1) ::
    .start .paragraph :: .text tagline :: .stop .paragraph :: rest

/-- Event-list builder for one well-formed list item. -/
def itemEvents (f : Fragment) : List MdEvent :=
  .start .item :: f ++ [.stop .item]

/-- One `linked_action_is_unique` rule instance run over a sequence of
context actions in order (the project argument is ignored by the rule), as
`ValidatorRunner::run` feeds it: the per-action results in order. -/
def linkedUniqueResults (seen : List ActionRef) :
    List CtxAction → List (Except String Unit)
  | [] => []
  | a :: rest =>
    let step := linkedActionIsUnique seen a none
    step.1 :: linkedUniqueResults step.2 rest

/-- Decidable rendering of the claim side condition on action ids: the
string ends in a space, a caret, and exactly 6 further characters. -/
def claimIdSuffix (t : String) : Bool :=
  decide (8 ≤ t.data.length) ∧
    (t.data.drop (t.data.length - 8)).take 2 = [' ', '^']

/-- The project of validation scenario B: `197001010000 Write paper`,
tagged `#in-progress`, whose single action `Draft intro ^abc123` is filed
under the `Complete` subsection. -/
def c1ProjectDoc : List MdEvent :=
  [.start (.heading 1), .text "Write paper", .stop (.heading 1),
   .start .paragraph, .text "#in-progress", .stop .paragraph,
   .start (.heading 2), .text "Actions", .stop (.heading 2),
   .start (.heading 3), .text "Complete", .stop (.heading 3),
   .start (.list none), .start .item, .text "Draft intro ^abc123",
   .stop .item, .stop (.list none)]

/-- The context of validation scenario B: a single action referencing
`![[197001010000 Write paper#^abc123]]` (the bracket pattern events are
exactly those the markdown tokenizer produces for that text, as pinned
down by the tests in context.rs and markdown.rs). -/
def c1ContextDoc : List MdEvent :=
  [.start (.heading 1), .text "@computer", .stop (.heading 1),
   .start (.list none), .start .item,
   .text "![", .text "[", .text "197001010000 Write paper#^abc123",
   .text "]", .text "]", .stop .item, .stop (.list none)]

/-- The parsed form of `c1ProjectDoc` under the name
`197001010000 Write paper`. -/
def c1Project : Project :=
  ⟨⟨"197001010000 Write paper".data, 12⟩, [.text "Write paper"], [],
    .inProgress, none, none,
    ⟨[], [], [⟨[.text "Draft intro"], some "abc123"⟩]⟩⟩

/-- The parsed form of `c1ContextDoc` under the name `@computer`. -/
def c1Context : Context :=
  ⟨⟨"@computer"⟩, [.text "@computer"],
    [.reference ⟨⟨"197001010000 Write paper".data, 12⟩, "abc123"⟩]⟩

/-- The scenario-B corpus. -/
def c1Docs : Documents := ⟨[c1Project], [c1Context]⟩

/-- A context document whose single action is
`[[Nonexistent Project#^abcdef]]`: the bracket pattern parses but the
link is not a well-formed project name. -/
def c2ContextDoc : List MdEvent :=
  [.start (.heading 1), .text "@computer", .stop (.heading 1),
   .start (.list none), .start .item,
   .text "[", .text "[", .text "Nonexistent Project#^abcdef",
   .text "]", .text "]", .stop .item, .stop (.list none)]

/-- The bracket fragment inside `c2ContextDoc`. -/
def c2Frag : Fragment :=
  [.text "[", .text "[", .text "Nonexistent Project#^abcdef",
   .text "]", .text "]"]

/-- Reference to action `abcdef` of project `197001010000 Alpha`. -/
def c3RefA : ActionRef := ⟨⟨"197001010000 Alpha".data, 12⟩, "abcdef"⟩

/-- Reference to action `abcdef` of the distinct project
`197001010001 Beta`. -/
def c3RefB : ActionRef := ⟨⟨"197001010001 Beta".data, 12⟩, "abcdef"⟩

/-! ## Helper lemmas -/

theorem parseUntil_no_stop (u : MdEvent) (l : List MdEvent) (h : u ∉ l) :
    parseUntil u l = (l, []) := by
  induction l with
  | nil => simp [parseUntil]
  | cons e rest ih =>
    have he : e ≠ u := fun hc => h (hc ▸ List.mem_cons_self e rest)
    simp only [parseUntil, if_neg he]
    rw [ih (fun hc => h (List.mem_cons_of_mem e hc))]

theorem parseUntil_append (u : MdEvent) (f : Fragment) (rest : List MdEvent)
    (h : u ∉ f) : parseUntil u (f ++ u :: rest) = (f, u :: rest) := by
  induction f with
  | nil => simp [parseUntil]
  | cons e f' ih =>
    have he : e ≠ u := fun hc => h (hc ▸ List.mem_cons_self e f')
    simp only [List.cons_append, parseUntil, if_neg he]
    simp [ih (fun hc => h (List.mem_cons_of_mem e hc))]

theorem parseStart_cons_self (tag : MdTag) (rest : List MdEvent) :
    parseStart tag (.start tag :: rest) = (.ok (.start tag), rest) := by
  simp [parseStart, parseGeneral]

theorem parseEnd_cons_self (tag : MdTag) (rest : List MdEvent) :
    parseEnd tag (.stop tag :: rest) = (.ok (.stop tag), rest) := by
  simp [parseEnd, parseGeneral]

theorem parseHeading_wellFormed (lv : Nat) (frag : Fragment)
    (rest : List MdEvent) (h : MdEvent.stop (.heading lv) ∉ frag) :
    parseHeading lv (.start (.heading lv) :: frag ++ .stop (.heading lv) :: rest) =
      (match headingOfFragment frag with
        | .ok hd => (.ok hd, rest)
        | .error e => (.error (.couldntParseHeading e), rest)) := by
  simp only [List.cons_append, parseHeading, parseStart_cons_self,
    parseUntil_append _ _ _ h, parseEnd_cons_self]

theorem parseItem_wellFormed (f : Fragment) (rest : List MdEvent)
    (h : MdEvent.stop .item ∉ f) :
    parseItem (itemEvents f ++ rest) = (.ok f, rest) := by
  have hsplit : itemEvents f ++ rest =
      .start .item :: (f ++ .stop .item :: rest) := by
    simp [itemEvents]
  rw [hsplit]
  simp only [parseItem, parseStart_cons_self, parseUntil_append _ _ _ h,
    parseEnd_cons_self]

theorem ctxActionsFromFrags_literal (fs : List Fragment)
    (h : ∀ f ∈ fs, blockRefFromFragment f = none) :
    ctxActionsFromFrags fs = some (fs.map CtxAction.literal) := by
  induction fs with
  | nil => rfl
  | cons f fs' ih =>
    have hf : blockRefFromFragment f = none := h f (List.mem_cons_self f fs')
    have ih' := ih (fun g hg => h g (List.mem_cons_of_mem f hg))
    simp [ctxActionsFromFrags, ctxActionFromFragment, hf, ih']

theorem parseListItems_cons_item (f : Fragment) (rest : List MdEvent)
    (hf : MdEvent.stop .item ∉ f) :
    parseListItems (.start .item :: (f ++ .stop .item :: rest)) =
      (match parseListItems rest with
        | (.error e, t) => (.error e, t)
        | (.ok fs, t) => (.ok (f :: fs), t)) := by
  have hpi : parseItem (.start .item :: (f ++ .stop .item :: rest)) =
      (.ok f, rest) := by
    have := parseItem_wellFormed f rest hf
    simpa [itemEvents] using this
  rw [parseListItems]
  split
  next x t heq =>
    simp [parseEnd, parseGeneral] at heq
  next r t heq =>
    split
    next e t₀ hpi₂ =>
      rw [hpi] at hpi₂
      simp at hpi₂
    next f₀ t₀ hpi₂ =>
      rw [hpi] at hpi₂
      cases hpi₂
      rfl

theorem parseListItems_dangling (body : Fragment)
    (hb : MdEvent.stop .item ∉ body) :
    parseListItems (.start .item :: body) =
      (.error (.unexpected (.stop .item) .eof), []) := by
  have hpi : parseItem (.start .item :: body) =
      (.error (.unexpected (.stop .item) .eof), []) := by
    simp [parseItem, parseStart_cons_self, parseUntil_no_stop _ _ hb,
      parseEnd, parseGeneral]
  rw [parseListItems]
  split
  next x t heq => simp [parseEnd, parseGeneral] at heq
  next r t heq =>
    split
    next e t₀ hpi₂ =>
      rw [hpi] at hpi₂
      cases hpi₂
      rfl
    next f₀ t₀ hpi₂ =>
      rw [hpi] at hpi₂
      simp at hpi₂

theorem parseListItems_flatMap_err (pre : List Fragment) (body : Fragment)
    (hpre : ∀ f ∈ pre, MdEvent.stop .item ∉ f)
    (hb : MdEvent.stop .item ∉ body) :
    parseListItems ((pre.flatMap itemEvents) ++ .start .item :: body) =
      (.error (.unexpected (.stop .item) .eof), []) := by
  induction pre with
  | nil => simpa using parseListItems_dangling body hb
  | cons f pre' ih =>
    have hf := hpre f (List.mem_cons_self f pre')
    have ih' := ih (fun g hg => hpre g (List.mem_cons_of_mem _ hg))
    have hsplit : (f :: pre').flatMap itemEvents ++ .start .item :: body =
        .start .item ::
          (f ++ .stop .item :: (pre'.flatMap itemEvents ++ .start .item :: body)) := by
      simp [itemEvents]
    rw [hsplit, parseListItems_cons_item f _ hf, ih']

/-- C6: the claim says a list item whose end boundary is missing stops item
collection and the list parse still succeeds with the items collected so
far; on the stream of a list start followed by an item that the stream
ends inside, `parse_list` in fact fails with an `Unexpected` end-of-file
error, so the claim is false. -/
theorem c6_counterexample :
    parseList [.start (.list none), .start .item, .text "a"] =
      (.error (.unexpected (.stop .item) .eof), []) := by
  simp [parseList, parseStart, parseGeneral, parseListItems, parseItem,
    parseEnd, parseUntil]

/-- C6 (amended): for every event stream beginning with an unordered-list
start, `parse_list` repeatedly parses items until the list-end event; when
an item has a missing end boundary because the stream ends inside it, the
item failure propagates through the `?` operator and the whole list parse
fails with that item error (`Unexpected` end-of-stream), discarding the
items collected so far. -/
theorem c6_amended (pre : List Fragment) (body : Fragment)
    (hpre : ∀ f ∈ pre, MdEvent.stop .item ∉ f)
    (hb : MdEvent.stop .item ∉ body) :
    parseList (.start (.list none) ::
        ((pre.flatMap itemEvents) ++ .start .item :: body)) =
      (.error (.unexpected (.stop .item) .eof), []) := by
  simp only [parseList, parseStart_cons_self]
  exact parseListItems_flatMap_err pre body hpre hb

/-- Witness for the amended C6 theorem at a one-item prefix and a dangling
second item. -/
theorem c6_amended_witness :
    parseList (.start (.list none) ::
        (([[.text "a"]].flatMap itemEvents) ++ .start .item :: [.text "b"])) =
      (.error (.unexpected (.stop .item) .eof), []) :=
  c6_amended [[.text "a"]] [.text "b"] (by decide) (by decide)

/-- C7: the expect operation, `parse_general` as instantiated by
`parse_start`, `parse_end` and `parse_text`, consumes the next event
exactly when it matches the expected shape (structural equality with the
expected start or end event, or being a text run for `parse_text`);
otherwise it returns `Unexpected` carrying the real next event or explicit
end-of-stream, leaving the stream unchanged. -/
theorem c7_expect_semantics (tag : MdTag) (s : List MdEvent) :
    (s.head? = some (.start tag) → parseStart tag s = (.ok (.start tag), s.tail)) ∧
    (∀ e, s.head? = some e → e ≠ .start tag →
      parseStart tag s = (.error (.unexpected (.start tag) (.event e)), s)) ∧
    (s.head? = none → parseStart tag s = (.error (.unexpected (.start tag) .eof), s)) ∧
    (s.head? = some (.stop tag) → parseEnd tag s = (.ok (.stop tag), s.tail)) ∧
    (∀ e, s.head? = some e → e ≠ .stop tag →
      parseEnd tag s = (.error (.unexpected (.stop tag) (.event e)), s)) ∧
    (s.head? = none → parseEnd tag s = (.error (.unexpected (.stop tag) .eof), s)) ∧
    (∀ t, s.head? = some (.text t) → parseText s = (.ok t, s.tail)) ∧
    (∀ e, s.head? = some e → (∀ t, e ≠ .text t) →
      parseText s = (.error (.unexpected (.text " ") (.event e)), s)) ∧
    (s.head? = none → parseText s = (.error (.unexpected (.text " ") .eof), s)) := by
  cases s with
  | nil =>
    refine ⟨?_, ?_, ?_, ?_, ?_, ?_, ?_, ?_, ?_⟩ <;> intros <;>
      simp_all [parseStart, parseEnd, parseText, parseGeneral]
  | cons e rest =>
    refine ⟨?_, ?_, ?_, ?_, ?_, ?_, ?_, ?_, ?_⟩
    · intro h
      simp only [List.head?_cons, Option.some.injEq] at h
      subst h
      simp [parseStart, parseGeneral]
    · intro e' he hne
      simp only [List.head?_cons, Option.some.injEq] at he
      subst he
      simp [parseStart, parseGeneral, hne]
    · intro h
      simp at h
    · intro h
      simp only [List.head?_cons, Option.some.injEq] at h
      subst h
      simp [parseEnd, parseGeneral]
    · intro e' he hne
      simp only [List.head?_cons, Option.some.injEq] at he
      subst he
      simp [parseEnd, parseGeneral, hne]
    · intro h
      simp at h
    · intro t ht
      simp only [List.head?_cons, Option.some.injEq] at ht
      subst ht
      simp [parseText, parseGeneral]
    · intro e' he hne
      simp only [List.head?_cons, Option.some.injEq] at he
      subst he
      cases e <;> first
        | exact absurd rfl (hne _)
        | simp [parseText, parseGeneral]
    · intro h
      simp at h

/-- Witness for C7 at concrete streams: a matching start event is
consumed, a mismatched one reports the real event without consuming, and
exhaustion reports end-of-stream. -/
theorem c7_witness :
    parseStart .paragraph [.start .paragraph, .text "x"] =
      (.ok (.start .paragraph), [.text "x"]) ∧
    parseStart .paragraph [.text "x"] =
      (.error (.unexpected (.start .paragraph) (.event (.text "x"))),
        [.text "x"]) ∧
    parseText [] = (.error (.unexpected (.text " ") .eof), []) :=
  ⟨(c7_expect_semantics .paragraph [.start .paragraph, .text "x"]).1 rfl,
   (c7_expect_semantics .paragraph [.text "x"]).2.1 (.text "x") rfl (by decide),
   (c7_expect_semantics .paragraph []).2.2.2.2.2.2.2.2 rfl⟩

/-- C1: the claim says the scenario-B corpus (in-progress project whose
single action sits under `Complete`, referenced by the context) produces
exactly one failure, attributed to the context and to no other entity; in
fact the very first diagnostic is attributed to the project (the
`in_progress_project_has_active_actions` rule fires because the only
action is not `Active`), and there are two failure groups, so the claim is
false. -/
theorem c1_counterexample :
    (runValidate c1Docs).length = 2 ∧
    (runValidate c1Docs).head? = some (.group "197001010000 Write paper"
      ["is in progress but has no active actions"]) :=
  ⟨rfl, rfl⟩

/-- C1 (amended): on the scenario-B corpus, parsing yields the expected
project and context, and the registered validation rule set reports
exactly two failures: `is in progress but has no active actions` grouped
under the project, and `action is not active in linked project "Write
paper"` grouped under the context. -/
theorem c1_amended :
    projectParse "197001010000 Write paper" c1ProjectDoc = .ok c1Project ∧
    contextParse "@computer" c1ContextDoc = .ok c1Context ∧
    runValidate c1Docs =
      [.group "197001010000 Write paper"
        ["is in progress but has no active actions"],
       .group "action in @computer"
        ["action is not active in linked project \"Write paper\""]] := by
  refine ⟨?_, ?_, rfl⟩
  · simp [projectParse, c1ProjectDoc, c1Project, docParse, parseHeading,
      parseStart, parseEnd, parseGeneral, parseUntil, parseTags, parseText,
      headingOfFragment, headingEventOfEvent, headingTagOfTag, splitTags,
      rustSplitSpace, stripHash, nameNew, findSpaceIdx, findStatus,
      statusFromTag, projectSections, actionsParseLoop, tryToText,
      parseListOpt, parseList, parseListItems, parseItem, actionFromFragment,
      splitId, rfindCaret, utf8Len, rustTrimEnd, isRustWhitespace,
      GActions.default, List.eraseIdx]
    decide
  · simp [contextParse, c1ContextDoc, c1Context, docParse, parseHeading,
      parseStart, parseEnd, parseGeneral, parseUntil, parseTags, parseText,
      headingOfFragment, headingEventOfEvent, headingTagOfTag, splitTags,
      rustSplitSpace, stripHash, ctxItemFrags, parseList, parseListItems,
      parseItem, ctxActionsFromFrags, ctxActionFromFragment,
      blockRefFromFragment, findHashCaret, actionRefFromBlockRef, nameNew,
      findSpaceIdx]

/-- C2: on a context whose single action is the bracket reference
`[[Nonexistent Project#^abcdef]]`, the bracket pattern parses into a
`BlockRef`, its link is not a well-formed project name, and
`Context::parse` therefore panics on the `unwrap` of
`ActionRef::from_block_ref` instead of succeeding and leaving the failure
to the `action_link_is_valid` validation rule as the spec describes. -/
theorem c2_parse_panics :
    blockRefFromFragment c2Frag =
      some ⟨"Nonexistent Project", "abcdef", false⟩ ∧
    nameNew "Nonexistent Project".data = none ∧
    contextParse "@computer" c2ContextDoc = .panic := by
  refine ⟨by decide, by decide, ?_⟩
  simp [contextParse, c2ContextDoc, c2Frag, docParse, parseHeading,
    parseStart, parseEnd, parseGeneral, parseUntil, parseTags, parseText,
    headingOfFragment, headingEventOfEvent, headingTagOfTag, splitTags,
    rustSplitSpace, stripHash, ctxItemFrags, parseList, parseListItems,
    parseItem, ctxActionsFromFrags, ctxActionFromFragment,
    blockRefFromFragment, findHashCaret, actionRefFromBlockRef, nameNew,
    findSpaceIdx]

theorem linkedUniqueResults_spec :
    ∀ (as : List CtxAction) (seen : List ActionRef),
      (linkedUniqueResults seen as).length = as.length ∧
      ∀ (i : Nat),
        ((linkedUniqueResults seen as)[i]? =
            some (.error "action is not unique in contexts") ↔
          ∃ r, as[i]? = some (.reference r) ∧
            (r ∈ seen ∨ ∃ j, j < i ∧ as[j]? = some (.reference r))) ∧
        (∀ x, (linkedUniqueResults seen as)[i]? = some x →
          x = Except.ok () ∨ x = .error "action is not unique in contexts")
  | [], seen => by
    refine ⟨rfl, fun i => ⟨?_, ?_⟩⟩
    · simp [linkedUniqueResults]
    · intro x hx
      simp [linkedUniqueResults] at hx
  | a :: rest, seen => by
    obtain ⟨ihlen, ih⟩ :=
      linkedUniqueResults_spec rest (linkedActionIsUnique seen a none).2
    refine ⟨by simp [linkedUniqueResults, ihlen], fun i => ?_⟩
    cases i with
    | zero =>
      constructor
      · constructor
        · intro h
          simp only [linkedUniqueResults, List.getElem?_cons_zero,
            Option.some.injEq] at h
          cases a with
          | literal f => simp [linkedActionIsUnique, CtxAction.toActionRef] at h
          | reference r₀ =>
            by_cases hr : r₀ ∈ seen
            · exact ⟨r₀, by simp, Or.inl hr⟩
            · simp [linkedActionIsUnique, CtxAction.toActionRef, hr] at h
        · rintro ⟨r, hr, hmem⟩
          simp only [List.getElem?_cons_zero, Option.some.injEq] at hr
          subst hr
          rcases hmem with hseen | ⟨j, hj, _⟩
          · simp [linkedUniqueResults, linkedActionIsUnique,
              CtxAction.toActionRef, hseen]
          · omega
      · intro x hx
        simp only [linkedUniqueResults, List.getElem?_cons_zero,
          Option.some.injEq] at hx
        subst hx
        cases a with
        | literal f => simp [linkedActionIsUnique, CtxAction.toActionRef]
        | reference r₀ =>
          by_cases hr : r₀ ∈ seen <;>
            simp [linkedActionIsUnique, CtxAction.toActionRef, hr]
    | succ i =>
      obtain ⟨ihiff, ihok⟩ := ih i
      have hstep : (linkedUniqueResults seen (a :: rest))[i + 1]? =
          (linkedUniqueResults (linkedActionIsUnique seen a none).2 rest)[i]? := by
        simp [linkedUniqueResults]
      constructor
      · rw [hstep, ihiff]
        constructor
        · rintro ⟨r, hrest, hmem⟩
          refine ⟨r, by simpa using hrest, ?_⟩
          rcases hmem with hseen | ⟨j, hj, hjr⟩
          · -- r ∈ step.2 implies r ∈ seen or a references r
            cases a with
            | literal f =>
              simp [linkedActionIsUnique, CtxAction.toActionRef] at hseen
              exact Or.inl hseen
            | reference r₀ =>
              by_cases hr : r₀ ∈ seen
              · simp [linkedActionIsUnique, CtxAction.toActionRef, hr] at hseen
                exact Or.inl hseen
              · simp [linkedActionIsUnique, CtxAction.toActionRef, hr] at hseen
                rcases hseen with h | h
                · exact Or.inr ⟨0, Nat.succ_pos i, by simp [h]⟩
                · exact Or.inl h
          · exact Or.inr ⟨j + 1, by omega, by simpa using hjr⟩
        · rintro ⟨r, hrest, hmem⟩
          refine ⟨r, by simpa using hrest, ?_⟩
          rcases hmem with hseen | ⟨j, hj, hjr⟩
          · -- r ∈ seen implies r ∈ step.2
            cases a with
            | literal f =>
              exact Or.inl (by
                simpa [linkedActionIsUnique, CtxAction.toActionRef] using hseen)
            | reference r₀ =>
              by_cases hr : r₀ ∈ seen <;>
                exact Or.inl (by
                  simp [linkedActionIsUnique, CtxAction.toActionRef, hr]
                  tauto)
          · cases j with
            | zero =>
              simp only [List.getElem?_cons_zero, Option.some.injEq] at hjr
              subst hjr
              -- a = reference r: r lands in step.2 either way
              by_cases hr : r ∈ seen <;>
                exact Or.inl (by
                  simp [linkedActionIsUnique, CtxAction.toActionRef, hr])
            | succ j =>
              exact Or.inr ⟨j, by omega, by simpa using hjr⟩
      · intro x hx
        rw [hstep] at hx
        exact ihok x hx

/-- C3: the claim says the linked-action uniqueness rule errors whenever
an earlier context action referenced the same `ActionId`, regardless of
the project names involved; here two references share the `ActionId`
`abcdef` but target different projects, and the rule accepts both, so the
claim is false. -/
theorem c3_counterexample :
    c3RefA.actionId = c3RefB.actionId ∧
    c3RefA.projectName ≠ c3RefB.projectName ∧
    (linkedActionIsUnique [] (.reference c3RefA) none).1 = .ok () ∧
    (linkedActionIsUnique (linkedActionIsUnique [] (.reference c3RefA) none).2
      (.reference c3RefB) none).1 = .ok () :=
  ⟨rfl, by decide, rfl, rfl⟩

/-- C3 (amended): for every sequence of context actions processed in order
by one `linked_action_is_unique` instance, the result for position `i` is
the uniqueness error exactly when action `i` is a reference and some
earlier action is a reference to the same full `ActionRef` (project name
and `ActionId` together); every result is either that error or `Ok`, and
there is one result per action, so literals and first occurrences of a
reference get `Ok`. -/
theorem c3_amended (as : List CtxAction) (i : Nat) :
    ((linkedUniqueResults [] as)[i]? =
        some (.error "action is not unique in contexts") ↔
      ∃ r, as[i]? = some (.reference r) ∧
        ∃ j, j < i ∧ as[j]? = some (.reference r)) ∧
    (∀ x, (linkedUniqueResults [] as)[i]? = some x →
      x = Except.ok () ∨ x = .error "action is not unique in contexts") ∧
    (linkedUniqueResults [] as).length = as.length := by
  obtain ⟨hlen, hspec⟩ := linkedUniqueResults_spec as []
  obtain ⟨hiff, hok⟩ := hspec i
  refine ⟨?_, hok, hlen⟩
  rw [hiff]
  simp

/-- Witness for the amended C3 theorem: a repeat of the same full
`ActionRef` at position 2 is rejected. -/
theorem c3_amended_witness :
    (linkedUniqueResults []
        [.reference c3RefA, .reference c3RefB, .reference c3RefB])[2]? =
      some (.error "action is not unique in contexts") :=
  (c3_amended [.reference c3RefA, .reference c3RefB, .reference c3RefB] 2).1.mpr
    ⟨c3RefB, rfl, 1, by omega, rfl⟩

theorem findSpaceIdx_eq_none (l : List Char) :
    findSpaceIdx l = none ↔ ' ' ∉ l := by
  induction l with
  | nil => simp [findSpaceIdx]
  | cons c rest ih =>
    by_cases hc : c = ' '
    · subst hc
      simp [findSpaceIdx]
    · simp [findSpaceIdx, hc, Option.map_eq_none', ih, Ne.symm hc]

theorem findSpaceIdx_append (d t : List Char) (hd : ' ' ∉ d) :
    findSpaceIdx (d ++ ' ' :: t) = some d.length := by
  induction d with
  | nil => simp [findSpaceIdx]
  | cons c rest ih =>
    have hc : c ≠ ' ' := fun h => hd (h ▸ List.mem_cons_self c rest)
    have ih' := ih (fun h => hd (List.mem_cons_of_mem c h))
    simp [findSpaceIdx, hc, ih']

theorem findSpaceIdx_decomp (l : List Char) (i : Nat)
    (h : findSpaceIdx l = some i) :
    l = l.take i ++ ' ' :: l.drop (i + 1) ∧ ' ' ∉ l.take i := by
  induction l generalizing i with
  | nil => simp [findSpaceIdx] at h
  | cons c rest ih =>
    by_cases hc : c = ' '
    · subst hc
      simp [findSpaceIdx] at h
      subst h
      simp
    · simp only [findSpaceIdx, if_neg hc, Option.map_eq_some'] at h
      obtain ⟨j, hj, hji⟩ := h
      subst hji
      obtain ⟨hdec, hmem⟩ := ih j hj
      constructor
      · simpa [List.take_cons, List.drop_succ_cons] using congrArg (c :: ·) hdec
      · simp [List.take_cons, hc]
        exact ⟨fun h => hc h.symm, hmem⟩

theorem isDigit_ne_space (c : Char) (h : c.isDigit) : c ≠ ' ' := by
  intro hc
  subst hc
  simp [Char.isDigit] at h

/-- C4: the claim says any filename without exactly one embedded space
fails Name construction; the filename `197001010000 a b` has two spaces
yet construction succeeds, with the id taken from before the first space
and the title being everything after it, so the claim is false. -/
theorem c4_counterexample :
    ("197001010000 a b".data.count ' ') = 2 ∧
    nameNew "197001010000 a b".data = some ⟨"197001010000 a b".data, 12⟩ ∧
    PName.id ⟨"197001010000 a b".data, 12⟩ = "197001010000".data ∧
    PName.title ⟨"197001010000 a b".data, 12⟩ = "a b".data :=
  ⟨by decide, by decide, by decide, by decide⟩

/-- C4 (amended): for every filename of the form twelve decimal digits,
a space, then an arbitrary title (which may itself contain further
spaces), Name construction succeeds, `id` is the 12-digit prefix and
`title` is everything after the first space; construction fails exactly
when the filename has no decomposition into a space-free 12-decimal-digit
prefix, a space, and a remainder, that is when it has no space at all or
the prefix before its first space is not exactly 12 decimal digits. -/
theorem c4_amended :
    (∀ (d t : List Char), d.length = 12 → d.all (·.isDigit) →
      nameNew (d ++ ' ' :: t) = some ⟨d ++ ' ' :: t, 12⟩ ∧
      PName.id ⟨d ++ ' ' :: t, 12⟩ = d ∧
      PName.title ⟨d ++ ' ' :: t, 12⟩ = t) ∧
    (∀ (l : List Char), nameNew l = none ↔
      ¬ ∃ d t, l = d ++ ' ' :: t ∧ ' ' ∉ d ∧ d.length = 12 ∧
          d.all (·.isDigit)) := by
  have huniq : ∀ (l d t : List Char), l = d ++ ' ' :: t → ' ' ∉ d →
      findSpaceIdx l = some d.length ∧ l.take d.length = d ∧
        l.drop (d.length + 1) = t := by
    intro l d t hdec hd
    subst hdec
    refine ⟨findSpaceIdx_append d t hd, List.take_left d (' ' :: t), ?_⟩
    have hsw : d ++ ' ' :: t = (d ++ [' ']) ++ t := by simp
    rw [hsw, List.drop_left' (by simp)]
  constructor
  · intro d t hlen hdig
    have hd : ' ' ∉ d := fun hm =>
      isDigit_ne_space _ (List.all_eq_true.mp hdig _ hm) rfl
    obtain ⟨hfind, htake, hdrop⟩ := huniq (d ++ ' ' :: t) d t rfl hd
    refine ⟨?_, ?_, ?_⟩
    · have hval : nameNew (d ++ ' ' :: t) = some ⟨d ++ ' ' :: t, d.length⟩ := by
        simp [nameNew, hfind, htake, hlen, hdig]
      rw [hval, hlen]
    · simp only [PName.id, ← hlen]
      exact htake
    · simp only [PName.title, ← hlen]
      exact hdrop
  · intro l
    cases hfs : findSpaceIdx l with
    | none =>
      have hnol : ' ' ∉ l := (findSpaceIdx_eq_none l).mp hfs
      simp only [nameNew, hfs]
      constructor
      · intro _
        rintro ⟨d, t, hdec, -, -, -⟩
        exact hnol (hdec ▸ List.mem_append_right d (List.mem_cons_self _ _))
      · intro _
        trivial
    | some i =>
      obtain ⟨hdec, hnmem⟩ := findSpaceIdx_decomp l i hfs
      by_cases hcond : (l.take i).length = 12 ∧ (l.take i).all (·.isDigit)
      · have hsome : nameNew l = some ⟨l, i⟩ := by
          simp [nameNew, hfs, hcond.1, hcond.2]
        rw [hsome]
        simp only [reduceCtorEq, false_iff, not_not]
        exact ⟨l.take i, l.drop (i + 1), hdec, hnmem, hcond⟩
      · have hnone : nameNew l = none := by
          have hc2 : (l.take i).length ≠ 12 ∨ ¬ (l.take i).all (·.isDigit) := by
            tauto
          simp only [nameNew, hfs]
          rw [if_pos hc2]
        rw [hnone]
        simp only [true_iff]
        rintro ⟨d, t, hdec2, hd2, hlen2, hdig2⟩
        obtain ⟨hfind2, htake2, -⟩ := huniq l d t hdec2 hd2
        rw [hfs] at hfind2
        have hdi : i = d.length := by injection hfind2
        rw [← hdi] at htake2
        apply hcond
        constructor
        · rw [htake2]
          exact hlen2
        · rw [htake2]
          exact hdig2

/-- Witness for the amended C4 theorem at the filename
`197001010000 Foo`. -/
theorem c4_amended_witness :
    nameNew ("197001010000".data ++ ' ' :: "Foo".data) =
      some ⟨"197001010000".data ++ ' ' :: "Foo".data, 12⟩ ∧
    PName.id ⟨"197001010000".data ++ ' ' :: "Foo".data, 12⟩ =
      "197001010000".data ∧
    PName.title ⟨"197001010000".data ++ ' ' :: "Foo".data, 12⟩ =
      "Foo".data :=
  c4_amended.1 "197001010000".data "Foo".data (by decide) (by decide)

theorem rfindCaret_eq_none (l : List Char) :
    rfindCaret l = none ↔ '^' ∉ l := by
  induction l with
  | nil => simp [rfindCaret]
  | cons c rest ih =>
    by_cases hc : c = '^'
    · subst hc
      simp only [rfindCaret]
      cases h : rfindCaret rest <;> simp [h, ih.symm]
    · simp only [rfindCaret]
      cases h : rfindCaret rest with
      | none => simp [h, hc, Ne.symm hc, ih.mp h]
      | some j =>
        have hmem : '^' ∈ rest := by
          by_contra hno
          rw [ih.mpr hno] at h
          cases h
        simp [h, hc, Ne.symm hc, hmem]

theorem rfindCaret_append (s c6 : List Char) (h : '^' ∉ c6) :
    rfindCaret (s ++ '^' :: c6) = some s.length := by
  induction s with
  | nil =>
    simp only [List.nil_append, rfindCaret, (rfindCaret_eq_none c6).mpr h]
    simp
  | cons c rest ih =>
    simp only [List.cons_append, rfindCaret, List.append_eq]
    rw [ih]
    simp

theorem rfindCaret_decomp (l : List Char) (i : Nat)
    (h : rfindCaret l = some i) :
    l = l.take i ++ '^' :: l.drop (i + 1) ∧ '^' ∉ l.drop (i + 1) := by
  induction l generalizing i with
  | nil => simp [rfindCaret] at h
  | cons c rest ih =>
    simp only [rfindCaret] at h
    cases hr : rfindCaret rest with
    | some j =>
      rw [hr] at h
      simp only [Option.some.injEq] at h
      subst h
      obtain ⟨hdec, hmem⟩ := ih j hr
      constructor
      · simpa [List.take_cons, List.drop_succ_cons] using congrArg (c :: ·) hdec
      · simpa [List.drop_succ_cons] using hmem
    | none =>
      rw [hr] at h
      by_cases hc : c = '^'
      · subst hc
        simp only [if_true, Option.some.injEq, eq_comm] at h
        subst h
        simpa using (rfindCaret_eq_none rest).mp hr
      · simp [hc] at h

theorem actionFromFragment_concat (pre : List MdEvent) (e : MdEvent) :
    actionFromFragment (pre ++ [e]) =
      (match splitId e with
        | some (restEv, id) => ⟨pre ++ restEv.toList, some id⟩
        | none => ⟨pre ++ [e], none⟩) := by
  simp only [actionFromFragment, List.getLast?_concat, List.dropLast_concat]

/-- C5 (amended): the id of a parsed action is extracted from the final
text run whenever its last caret is followed by exactly 6 UTF-8 bytes; no
preceding space is required. The id is that suffix, and the text is the
fragment with the suffix from the last caret removed and trailing
whitespace trimmed from the remainder (the run dropped entirely when
nothing remains); when the final text run has no caret, or its last caret
(the one with a caret-free tail) is followed by a number of bytes other
than 6, the action has no id and its text is the fragment unchanged. -/
theorem c5_amended :
    (∀ (pre : List MdEvent) (s c6 : List Char),
      utf8Len c6 = 6 → '^' ∉ c6 →
      actionFromFragment (pre ++ [.text (String.mk (s ++ '^' :: c6))]) =
        ⟨pre ++ (if rustTrimEnd s = [] then []
          else [.text (String.mk (rustTrimEnd s))]), some (String.mk c6)⟩) ∧
    (∀ (pre : List MdEvent) (t : String),
      (∀ (s c6 : List Char), t.data = s ++ '^' :: c6 → '^' ∉ c6 →
        utf8Len c6 ≠ 6) →
      actionFromFragment (pre ++ [.text t]) = ⟨pre ++ [.text t], none⟩) := by
  constructor
  · intro pre s c6 h6 hnc
    have hrf : rfindCaret (String.mk (s ++ '^' :: c6)).data = some s.length :=
      rfindCaret_append s c6 hnc
    have htake : (s ++ '^' :: c6).take s.length = s := List.take_left s _
    have hdrop : (s ++ '^' :: c6).drop (s.length + 1) = c6 := by
      have hsw : s ++ '^' :: c6 = (s ++ ['^']) ++ c6 := by simp
      rw [hsw, List.drop_left' (by simp)]
    have hsplit : splitId (.text (String.mk (s ++ '^' :: c6))) =
        some (if rustTrimEnd s = [] then none
          else some (.text (String.mk (rustTrimEnd s))), String.mk c6) := by
      simp only [splitId, hrf, htake, hdrop, h6]
      simp
    rw [actionFromFragment_concat, hsplit]
    by_cases ht : rustTrimEnd s = [] <;> simp [ht]
  · intro pre t hno
    have hsplit : splitId (.text t) = none := by
      cases hrf : rfindCaret t.data with
      | none => simp [splitId, hrf]
      | some i =>
        obtain ⟨hdec, hmem⟩ := rfindCaret_decomp t.data i hrf
        have hne := hno (t.data.take i) (t.data.drop (i + 1)) hdec hmem
        simp [splitId, hrf, hne]
    rw [actionFromFragment_concat, hsplit]

/-- C5: the claim says a fragment whose final text run does not end in a
space, a caret, and 6 further characters yields an action with no id and
unchanged text; the fragment `x^abcdef` has no such suffix (no space
before the caret), yet the code extracts id `abcdef` and rewrites the
text to `x`, so the claim is false. -/
theorem c5_counterexample :
    claimIdSuffix "x^abcdef" = false ∧
    actionFromFragment [.text "x^abcdef"] = ⟨[.text "x"], some "abcdef"⟩ :=
  ⟨by decide, by decide⟩

/-- Witness for the amended C5 theorem: a trailing caret id without a
preceding space is extracted with the whitespace before it trimmed, and a
caret-free text run is left unchanged with no id. -/
theorem c5_amended_witness :
    actionFromFragment ([.code "k"] ++
        [.text (String.mk ("go ".data ++ '^' :: "abcdef".data))]) =
      ⟨[.code "k"] ++ (if rustTrimEnd "go ".data = [] then []
        else [.text (String.mk (rustTrimEnd "go ".data))]),
        some (String.mk "abcdef".data)⟩ ∧
    actionFromFragment ([] ++ [.text "plain"]) = ⟨[] ++ [.text "plain"], none⟩ :=
  ⟨c5_amended.1 [.code "k"] "go ".data "abcdef".data (by decide) (by decide),
   c5_amended.2 [] "plain" (by
    intro s c6 hdec _
    exact absurd (hdec ▸ List.mem_append_right s (List.mem_cons_self _ _))
      (by decide))⟩

/-- C9: `Actions::get_action` searches the active, upcoming and complete
lists in that order and returns the first action whose id is present and
equal to the requested one together with its category: it returns `none`
exactly when no action in any list carries the id; a returned action
carries the id and everything before it in the search order does not; an
occurrence in `active` always wins with category `Active`, and with no
active occurrence an occurrence in `upcoming` wins with category
`Upcoming`. -/
theorem c9_get_action_order (a : GActions) (id : String) :
    (a.getAction id = none ↔ ∀ p ∈ a.actionsList, p.1.id ≠ some id) ∧
    (∀ x st, a.getAction id = some (x, st) →
      x.id = some id ∧
      ∃ preL postL, a.actionsList = preL ++ (x, st) :: postL ∧
        ∀ p ∈ preL, p.1.id ≠ some id) ∧
    (∀ x, x ∈ a.active → x.id = some id →
      ∃ y, a.getAction id = some (y, .active) ∧ y ∈ a.active ∧
        y.id = some id) ∧
    ((∀ x ∈ a.active, x.id ≠ some id) →
      ∀ x, x ∈ a.upcoming → x.id = some id →
      ∃ y, a.getAction id = some (y, .upcoming) ∧ y ∈ a.upcoming ∧
        y.id = some id) := by
  refine ⟨?_, ?_, ?_, ?_⟩
  · simp [GActions.getAction, List.find?_eq_none]
  · intro x st h
    rw [GActions.getAction, List.find?_eq_some] at h
    obtain ⟨hp, preL, postL, hsplit, hpre⟩ := h
    refine ⟨by simpa using hp, preL, postL, hsplit, ?_⟩
    intro p hploc
    have := hpre p hploc
    simpa using this
  · intro x hx hid
    have hsome : (List.find? (fun p => p.1.id = some id)
        (a.active.map (fun q => (q, ActionStatus.active)))).isSome := by
      rw [List.find?_isSome]
      exact ⟨(x, .active), List.mem_map_of_mem _ hx, by simpa using hid⟩
    obtain ⟨q, hq⟩ := Option.isSome_iff_exists.mp hsome
    have hqmem := List.mem_of_find?_eq_some hq
    obtain ⟨y, hy, hyq⟩ := List.mem_map.mp hqmem
    have hqp := List.find?_some hq
    refine ⟨y, ?_, hy, ?_⟩
    · rw [GActions.getAction, GActions.actionsList, List.append_assoc,
        List.find?_append, hq]
      simp [← hyq]
    · rw [← hyq] at hqp
      simpa using hqp
  · intro hact x hx hid
    have hnone : List.find? (fun p => p.1.id = some id)
        (a.active.map (fun q => (q, ActionStatus.active))) = none := by
      rw [List.find?_eq_none]
      rintro p hmem
      obtain ⟨z, hz, rfl⟩ := List.mem_map.mp hmem
      simpa using hact z hz
    have hsome : (List.find? (fun p => p.1.id = some id)
        (a.upcoming.map (fun q => (q, ActionStatus.upcoming)))).isSome := by
      rw [List.find?_isSome]
      exact ⟨(x, .upcoming), List.mem_map_of_mem _ hx, by simpa using hid⟩
    obtain ⟨q, hq⟩ := Option.isSome_iff_exists.mp hsome
    have hqmem := List.mem_of_find?_eq_some hq
    obtain ⟨y, hy, hyq⟩ := List.mem_map.mp hqmem
    have hqp := List.find?_some hq
    refine ⟨y, ?_, hy, ?_⟩
    · rw [GActions.getAction, GActions.actionsList, List.append_assoc,
        List.find?_append, hnone, List.find?_append, hq]
      simp [← hyq]
    · rw [← hyq] at hqp
      simpa using hqp

/-- Witness for C9 on a concrete `Actions` value where the same id occurs
in both the active and the complete list. -/
theorem c9_witness :
    ∃ y, (GActions.mk [⟨[.text "a"], some "x"⟩] []
        [⟨[.text "c"], some "x"⟩]).getAction "x" =
      some (y, .active) ∧ y ∈ [(⟨[.text "a"], some "x"⟩ : GAction)] ∧
      y.id = some "x" :=
  (c9_get_action_order
      (GActions.mk [⟨[.text "a"], some "x"⟩] [] [⟨[.text "c"], some "x"⟩])
      "x").2.2.1 ⟨[.text "a"], some "x"⟩ (by decide) (by decide)

theorem findStatus_of_unique :
    ∀ (tags : List String) (i : Nat) (hi : i < tags.length) (st : Status),
      statusFromTag tags[i] = some st →
      (∀ (j : Nat) (hj : j < tags.length), j ≠ i →
        statusFromTag tags[j] = none) →
      findStatus tags = some (i, st)
  | [], i, hi, st, _, _ => by simp at hi
  | t :: rest, 0, hi, st, hst, hothers => by
    simp only [List.getElem_cons_zero] at hst
    simp [findStatus, hst]
  | t :: rest, i + 1, hi, st, hst, hothers => by
    have ht : statusFromTag t = none := by
      have := hothers 0 (by (try simp only [List.length_cons] at *); omega) (by (try simp only [List.length_cons] at *); omega)
      simpa using this
    have hrec := findStatus_of_unique rest i (by simpa using hi) st
      (by simpa using hst)
      (fun j hj hne => by
        have := hothers (j + 1) (by (try simp only [List.length_cons] at *); omega) (by (try simp only [List.length_cons] at *); omega)
        simpa using this)
    simp [findStatus, ht, hrec]

theorem findStatus_eq_none (tags : List String)
    (h : ∀ x ∈ tags, statusFromTag x = none) : findStatus tags = none := by
  induction tags with
  | nil => rfl
  | cons t rest ih =>
    have ht := h t (List.mem_cons_self t rest)
    simp [findStatus, ht, ih (fun x hx => h x (List.mem_cons_of_mem t hx))]

theorem eraseIdx_status_none :
    ∀ (tags : List String) (i : Nat), i < tags.length →
      (∀ (j : Nat) (hj : j < tags.length), j ≠ i →
        statusFromTag tags[j] = none) →
      ∀ x ∈ tags.eraseIdx i, statusFromTag x = none
  | [], i, hi, _, x, hx => by simp at hi
  | t :: rest, 0, hi, hothers, x, hx => by
    simp only [List.eraseIdx_cons_zero] at hx
    obtain ⟨j, hj, hjx⟩ := List.mem_iff_getElem.mp hx
    have := hothers (j + 1) (by (try simp only [List.length_cons] at *); omega) (by (try simp only [List.length_cons] at *); omega)
    simpa [hjx] using this
  | t :: rest, i + 1, hi, hothers, x, hx => by
    simp only [List.eraseIdx_cons_succ, List.mem_cons] at hx
    rcases hx with rfl | hx
    · have := hothers 0 (by (try simp only [List.length_cons] at *); omega) (by (try simp only [List.length_cons] at *); omega)
      simpa using this
    · exact eraseIdx_status_none rest i (by simpa using hi)
        (fun j hj hne => by
          have := hothers (j + 1) (by (try simp only [List.length_cons] at *); omega) (by (try simp only [List.length_cons] at *); omega)
          simpa using this) x hx

theorem docParse_projDoc (tt tagline : String) (rest : List MdEvent) :
    docParse (projDocEvents tt tagline rest) =
      .ok ⟨[.text tt], splitTags tagline, rest⟩ := by
  simp [projDocEvents, docParse, parseHeading, parseStart, parseEnd,
    parseGeneral, parseUntil, parseTags, parseText, headingOfFragment,
    headingEventOfEvent]

/-- C8: for every project document whose tag line holds exactly one
recognized status tag among other tags (at any position), and whose
remaining sections parse, `Project::parse` succeeds with that status and
a tag list of the original length minus one not containing the status
tag; with no recognized status tag it fails with `MissingStatus`. -/
theorem c8_status_extraction (fn : String) (nm : PName) (tt tagline : String)
    (tags : List String) (rest : List MdEvent)
    (hname : nameNew fn.data = some nm)
    (htags : splitTags tagline = tags) :
    (∀ (i : Nat) (hi : i < tags.length) (st : Status),
      statusFromTag tags[i] = some st →
      (∀ (j : Nat) (hj : j < tags.length), j ≠ i →
        statusFromTag tags[j] = none) →
      ∀ gia s', projectSections none none none rest = (.ok gia, s') →
        projectParse fn (projDocEvents tt tagline rest) =
          .ok ⟨nm, [.text tt], tags.eraseIdx i, st, gia.1, gia.2.1,
            gia.2.2.getD GActions.default⟩ ∧
        (tags.eraseIdx i).length = tags.length - 1 ∧
        tags[i] ∉ tags.eraseIdx i) ∧
    ((∀ x ∈ tags, statusFromTag x = none) →
      projectParse fn (projDocEvents tt tagline rest) =
        .error .missingStatus) := by
  constructor
  · intro i hi st hst hothers gia s' hsec
    have hfind : findStatus tags = some (i, st) :=
      findStatus_of_unique tags i hi st hst hothers
    refine ⟨?_, ?_, ?_⟩
    · rw [projectParse, hname, docParse_projDoc, htags]
      simp only [hfind, hsec]
    · have := List.length_eraseIdx_add_one hi
      omega
    · intro hmem
      have := eraseIdx_status_none tags i hi hothers _ hmem
      rw [hst] at this
      cases this
  · intro hnone
    have hfind : findStatus tags = none := findStatus_eq_none tags hnone
    rw [projectParse, hname, docParse_projDoc, htags]
    simp only [hfind]

/-- C10: for every input whose first element is a level-1 heading of
inline-safe events and whose list items (if any) do not match the
block-reference bracket pattern, `Context::parse` succeeds: whatever the
tag paragraph looks like its failure is swallowed, every parsed item
becomes a `Literal` action, and when the remainder after the tag attempt
does not begin an unordered list the action list is empty. -/
theorem c10_title_only_error (fn : String) (titleFrag : Fragment) (hd : Heading)
    (rest : List MdEvent)
    (hconv : headingOfFragment titleFrag = .ok hd)
    (hnot : MdEvent.stop (.heading 1) ∉ titleFrag)
    (hnobr : ∀ f ∈ ctxItemFrags (parseTags rest).2,
      blockRefFromFragment f = none) :
    contextParse fn (docEvents titleFrag rest) =
      .ok ⟨⟨fn⟩, hd,
        (ctxItemFrags (parseTags rest).2).map CtxAction.literal⟩ ∧
    ((parseTags rest).2.head? ≠ some (.start (.list none)) →
      ctxItemFrags (parseTags rest).2 = []) := by
  constructor
  · have hdoc : ∃ tg, docParse (docEvents titleFrag rest) =
        .ok ⟨hd, tg, (parseTags rest).2⟩ := by
      rw [docParse, docEvents]
      rw [parseHeading_wellFormed 1 titleFrag rest hnot]
      rcases hpt : parseTags rest with ⟨rt, rest₂⟩
      cases rt with
      | ok tags => exact ⟨tags, by simp [hconv, hpt]⟩
      | error e => exact ⟨[], by simp [hconv, hpt]⟩
    obtain ⟨tg, hdoc⟩ := hdoc
    rw [contextParse, hdoc]
    simp only [ctxActionsFromFrags_literal _ hnobr]
  · intro hhead
    rw [ctxItemFrags, parseList]
    cases hs : (parseTags rest).2 with
    | nil => simp [parseStart, parseGeneral]
    | cons e r =>
      have he : e ≠ .start (.list none) := by
        intro hc
        subst hc
        exact hhead (by rw [hs]; rfl)
      simp [parseStart, parseGeneral, he]

/-- Witness for C8 at the tag line `#foo #in-progress #bar` (status in the
middle) and at its `MissingStatus` half indirectly through the main
conjunct. -/
theorem c8_witness :
    projectParse "197001010000 T"
        (projDocEvents "T" "#foo #in-progress #bar" []) =
      .ok ⟨⟨"197001010000 T".data, 12⟩, [.text "T"], ["foo", "bar"],
        .inProgress, none, none, GActions.default⟩ ∧
    (["foo", "bar"] : List String).length = 3 - 1 ∧
    "in-progress" ∉ (["foo", "bar"] : List String) :=
  (c8_status_extraction "197001010000 T" ⟨"197001010000 T".data, 12⟩ "T"
      "#foo #in-progress #bar" ["foo", "in-progress", "bar"] []
      (by decide) (by decide)).1 1 (by decide) .inProgress (by decide)
      (by decide) (none, none, none) [] (by simp [projectSections])

/-- Witness for C10 on a document whose remainder is a thematic rule (so
the tag parse fails and there is no list): the context still parses, with
no actions. -/
theorem c10_witness :
    contextParse "@c" (docEvents [.text "T"] [.rule]) =
      .ok ⟨⟨"@c"⟩, [.text "T"],
        (ctxItemFrags (parseTags [.rule]).2).map CtxAction.literal⟩ ∧
    ((parseTags [.rule]).2.head? ≠ some (.start (.list none)) →
      ctxItemFrags (parseTags [.rule]).2 = []) :=
  c10_title_only_error "@c" [.text "T"] [.text "T"] [.rule] rfl (by decide)
    (by simp [ctxItemFrags, parseTags, parseText, parseGeneral, parseList,
      parseStart])
